import Mathlib

/-!
Shallow embedding of the songindex repository (src/scanner.rs, src/db.rs)
and verification of its natural-language specification.

Modelling conventions:
* Strings are modelled as already NFC-normalized (the source's `nfc` helper
  is the identity in this model; no claim concerns Unicode normalization).
* Rust byte-indexed string operations are modelled on `List Char`; all the
  string patterns involved (" - ", " – ", ".pdf", …) make the byte/char
  distinction immaterial because UTF-8 byte-level matches of valid substrings
  occur only at character boundaries.
* SQLite tables are lists of rows; `PRAGMA foreign_keys=ON` is set in
  main.rs, so deleting a song or tag cascades to its `song_tags` links.
-/

namespace SongIndex

/-! ## Character-list string utilities (Rust `str` operations) -/

/-- `listIsPre pat s` : `pat` occurs at the start of `s` (Rust slice equality at an offset). -/
def listIsPre : List Char → List Char → Bool
  | [], _ => true
  | _ :: _, [] => false
  | a :: as, b :: bs => a == b && listIsPre as bs

/-- `listHasSub pat s` : `pat` occurs somewhere inside `s` (Rust `str::contains`). -/
def listHasSub (pat : List Char) : List Char → Bool
  | [] => pat.isEmpty
  | c :: rest => listIsPre pat (c :: rest) || listHasSub pat rest

/-- Rust `str::contains` on strings. -/
def strContains (s pat : String) : Bool := listHasSub pat.toList s.toList

/-- `listIsSuf pat s` : `pat` occurs at the end of `s`. -/
def listIsSuf (pat s : List Char) : Bool := listIsPre pat.reverse s.reverse

/-- Iteration core of `trim_end_matches`; the fuel argument only bounds the
number of strips (each strip removes at least one character, so `s.length`
is always enough fuel). -/
def trimEndLoop (pat : List Char) : Nat → List Char → List Char
  | 0, s => s
  | n + 1, s =>
    if !pat.isEmpty && listIsSuf pat s then
      trimEndLoop pat n (s.take (s.length - pat.length))
    else s

/-- Rust `str::trim_end_matches pat`: repeatedly remove the suffix `pat`. -/
def trimEndMatchesList (pat : List Char) (s : List Char) : List Char :=
  trimEndLoop pat s.length s

/-- Rust `str::trim`: strip whitespace from both ends. -/
def trimChars (s : List Char) : List Char :=
  ((s.dropWhile Char.isWhitespace).reverse.dropWhile Char.isWhitespace).reverse

/-- Rust `str::find pat`: index of the first occurrence of `pat`, if any. -/
def findSubIdx (pat : List Char) : List Char → Option Nat
  | [] => if pat.isEmpty then some 0 else none
  | c :: rest =>
    if listIsPre pat (c :: rest) then some 0
    else (findSubIdx pat rest).map (· + 1)

/-! ## FilenameParser (scanner.rs, `parse_filename`) -/

/-- The plain-hyphen separator `" - "`. -/
def sepHyphen : List Char := [' ', '-', ' ']

/-- The en-dash separator `" – "` (the code skips `idx + 3 bytes + 2`,
i.e. exactly the three-character separator). -/
def sepEndash : List Char := [' ', '–', ' ']

/-- One separator attempt of `parse_filename`: find the first occurrence of
`sep`; if found and both trimmed sides are non-empty, return `(titel, artist)`. -/
def splitAtSep (sep name : List Char) : Option (List Char × List Char) :=
  match findSubIdx sep name with
  | some idx =>
    let artist := trimChars (name.take idx)
    let titel := trimChars (name.drop (idx + sep.length))
    if artist.isEmpty || titel.isEmpty then none else some (titel, artist)
  | none => none

/-- The cleaned `name` computed by `parse_filename`: strip all trailing
`".pdf"`, then all trailing `".PDF"`, then all trailing `" Kopie"`, then trim. -/
def cleanName (filename : List Char) : List Char :=
  trimChars (trimEndMatchesList " Kopie".toList
    (trimEndMatchesList ".PDF".toList (trimEndMatchesList ".pdf".toList filename)))

/-- scanner.rs `parse_filename`: returns `(titel, optional artist)`. -/
def parse_filename (filename : String) : String × Option String :=
  let name := cleanName filename.toList
  match splitAtSep sepHyphen name with
  | some (t, a) => (t.asString, some a.asString)
  | none =>
    match splitAtSep sepEndash name with
    | some (t, a) => (t.asString, some a.asString)
    | none => (name.asString, none)

/-! ## Spec-side formulation of the filename parser (§4.2 of the spec)

The spec describes the split as happening at "the *first* occurrence ...
where both sides are non-empty after trimming".  The code instead checks
only the very first occurrence of the separator and falls through to the
next separator kind if its sides are empty.  `specSplit` follows the
spec's words; the refinement theorem shows the two agree. -/

/-- `goodSplitAt sep name i` : `sep` occurs at index `i` of `name` and both
sides are non-empty after trimming. -/
def goodSplitAt (sep name : List Char) (i : Nat) : Bool :=
  listIsPre sep (name.drop i) &&
    !(trimChars (name.take i)).isEmpty &&
    !(trimChars (name.drop (i + sep.length))).isEmpty

/-- Spec's split: the first index where the separator occurs with both sides
non-empty after trimming. -/
def specSplit (sep name : List Char) : Option (List Char × List Char) :=
  ((List.range (name.length + 1)).find? (goodSplitAt sep name)).map
    (fun i => (trimChars (name.drop (i + sep.length)), trimChars (name.take i)))

/-- The filename parser as described by the (amended) spec sentence. -/
def specParseFilename (filename : String) : String × Option String :=
  let name := cleanName filename.toList
  match specSplit sepHyphen name with
  | some (t, a) => (t.asString, some a.asString)
  | none =>
    match specSplit sepEndash name with
    | some (t, a) => (t.asString, some a.asString)
    | none => (name.asString, none)

/-! ## Paths and eligibility (scanner.rs walk filters, watcher filters)

A path is modelled relative to the watched root `base_dir` as its list of
parent components plus the final file name.  The scanner's hidden-segment
check inspects the absolute path's components; we assume the root itself
contains no hidden component, so the check is over the relative components.
The source applies `nfc` everywhere; strings here are already normalized. -/

structure RelPath where
  dirs : List String
  file : String
deriving DecidableEq

/-- All relative components, parents first, file name last (never empty). -/
def RelPath.components (p : RelPath) : List String := p.dirs ++ [p.file]

/-- `dateipfad`: the stored relative path string (`to_string_lossy` of the
relative path joins components with `/`). -/
def pathString (p : RelPath) : String :=
  String.intercalate "/" p.components

/-- Rust `str::starts_with('.')` on a component. -/
def startsWithDot (s : String) : Bool :=
  match s.toList with
  | [] => false
  | c :: _ => c == '.'

/-- scanner.rs line 134-138: some path component is dot-prefixed. -/
def isHiddenPath (p : RelPath) : Bool := p.components.any startsWithDot

/-- `path.starts_with(base_dir.join("songindex"))`: the first relative
component is the metadata subdirectory. -/
def underSongindex (p : RelPath) : Bool :=
  match p.components with
  | [] => false
  | c :: _ => c == "songindex"

/-- Rust `Path::extension`: the part of the file name after the last dot;
`none` when there is no dot or the only dot is the leading character. -/
def rustExtension (name : List Char) : Option (List Char) :=
  match name.reverse.findIdx? (fun c => c == '.') with
  | none => none
  | some i =>
    if i + 1 == name.length then none
    else some ((name.reverse.take i).reverse)

/-- ASCII lower-casing (models `to_lowercase`; the comparison target is the
ASCII string "pdf", where Unicode and ASCII lower-casing agree). -/
def lowerAscii (s : List Char) : List Char := s.map Char.toLower

/-- Extension check shared by the scanner, notifier and worker:
`ext.to_string_lossy().to_lowercase() == "pdf"`. -/
def extIsPdf (p : RelPath) : Bool :=
  match rustExtension p.file.toList with
  | some e => lowerAscii e == "pdf".toList
  | none => false

/-- scanner.rs `scan_directory` walk filter (lines 129-147): not under the
metadata subdirectory, no hidden segment, document extension. -/
def scannerEligible (p : RelPath) : Bool :=
  !underSongindex p && !isHiddenPath p && extIsPdf p

/-- `start_watcher` notifier stage filter (lines 321-331): not under the
metadata subdirectory and document extension — no hidden-segment check. -/
def notifierForwards (p : RelPath) : Bool :=
  !underSongindex p && extIsPdf p

/-- `add_single_file` eligibility checks (lines 220-230): document extension
and not under the metadata subdirectory — again no hidden-segment check. -/
def addStageEligible (p : RelPath) : Bool :=
  extIsPdf p && !underSongindex p

/-- The combined predicate under which the incremental watcher indexes a
path: it must pass the notifier stage and the worker's own checks. -/
def watcherEligible (p : RelPath) : Bool :=
  notifierForwards p && addStageEligible p

/-! ## AutoTagInferencer (scanner.rs `AUTO_TAGS`, `infer_tags`) -/

structure AutoTag where
  pattern : String
  kategorie : String
  wert : String

/-- The fixed rule table (scanner.rs lines 22-46, in source order). -/
def AUTO_TAGS : List AutoTag := [
  ⟨"E-Gitarre", "instrument", "E-Gitarre"⟩,
  ⟨"e-gitarre", "instrument", "E-Gitarre"⟩,
  ⟨"1. E-Gitarre", "instrument", "E-Gitarre"⟩,
  ⟨"Zupfen", "technik", "Fingerpicking"⟩,
  ⟨"zupfen", "technik", "Fingerpicking"⟩,
  ⟨"Anfaenger", "schwierigkeit", "Anfänger"⟩,
  ⟨"Kinderlieder", "schwierigkeit", "Anfänger"⟩,
  ⟨"Kinderlieder", "stil", "Kinderlieder"⟩,
  ⟨"Moderne Popsongs", "stil", "Pop"⟩,
  ⟨"Mundart", "stil", "Mundart"⟩,
  ⟨"Weihnachtssongs", "stil", "Weihnachten"⟩,
  ⟨"Christmas", "stil", "Weihnachten"⟩,
  ⟨"Worship", "stil", "Worship"⟩,
  ⟨"Blues", "stil", "Blues"⟩,
  ⟨"Jazz", "stil", "Jazz"⟩,
  ⟨"Solos", "technik", "Solo"⟩,
  ⟨"7. Solos", "technik", "Solo"⟩,
  ⟨"Klassisch", "stil", "Klassik"⟩,
  ⟨"ukulele", "instrument", "Ukulele"⟩,
  ⟨"01 ukulele", "instrument", "Ukulele"⟩,
  ⟨"The Beatles", "artist", "The Beatles"⟩,
  ⟨"Bossa", "stil", "Bossa Nova"⟩,
  ⟨"Samba", "stil", "Bossa Nova"⟩]

/-- scanner.rs `infer_tags`: fold over the rule table, emitting each matching
rule's `(kategorie, wert)` pair once (the source tracks a `seen` hash set
that always holds exactly the pairs already pushed to `tags`; here the
accumulator itself plays that role), then the acoustic-guitar fallback. -/
def infer_tags (path : String) : List (String × String) :=
  let tags := AUTO_TAGS.foldl
    (fun acc t =>
      if strContains path t.pattern && !(acc.contains (t.kategorie, t.wert)) then
        acc ++ [(t.kategorie, t.wert)]
      else acc)
    []
  if strContains path "00 gitarre" && !(tags.any (fun kv => kv.1 == "instrument")) then
    tags ++ [("instrument", "Akustik-Gitarre")]
  else tags

/-! ## Database model (db.rs)

One list per table; `next_song_id` / `next_tag_id` model SQLite's rowid
allocation (`last_insert_rowid`).  `created_at` models the insertion
`CURRENT_TIMESTAMP` by the insertion sequence number; no claim depends on
its scale.  `PRAGMA foreign_keys=ON` (main.rs line 42) makes the
`ON DELETE CASCADE` clauses active, so deleting songs or tags removes the
`song_tags` rows that reference them. -/

structure SongRow where
  id : Nat
  titel : String
  artist : Option String
  dateipfad : String
  dateiname : String
  has_audio : Bool
  audio_pfad : Option String
  created_at : Nat
deriving DecidableEq

structure TagRow where
  id : Nat
  kategorie : String
  wert : String
deriving DecidableEq

structure SongTagRow where
  song_id : Nat
  tag_id : Nat
  auto_generated : Bool
deriving DecidableEq

structure Db where
  songs : List SongRow
  tags : List TagRow
  song_tags : List SongTagRow
  next_song_id : Nat
  next_tag_id : Nat
deriving DecidableEq

/-- `SELECT COUNT(*) FROM songs WHERE dateipfad = ?1` &gt; 0. -/
def songPathExists (db : Db) (rel : String) : Bool :=
  db.songs.any (fun s => s.dateipfad == rel)

/-- db.rs `get_or_create_tag`: `INSERT OR IGNORE` on the `(kategorie, wert)`
unique key, then `SELECT id`. Returns the updated database and the tag id. -/
def get_or_create_tag (db : Db) (kategorie wert : String) : Db × Nat :=
  match db.tags.find? (fun t => t.kategorie == kategorie && t.wert == wert) with
  | some t => (db, t.id)
  | none =>
    ({ db with
        tags := db.tags ++ [⟨db.next_tag_id, kategorie, wert⟩],
        next_tag_id := db.next_tag_id + 1 },
      db.next_tag_id)

/-- `INSERT OR IGNORE INTO song_tags` (primary key `(song_id, tag_id)`). -/
def insertSongTag (db : Db) (sid tid : Nat) (auto : Bool) : Db :=
  if db.song_tags.any (fun st => st.song_id == sid && st.tag_id == tid) then db
  else { db with song_tags := db.song_tags ++ [⟨sid, tid, auto⟩] }

/-- The fold step of the auto-tag attachment loop, over an arbitrary pair
list. -/
def attachFold (sid : Nat) (l : List (String × String)) (db : Db) : Db :=
  l.foldl
    (fun db kv =>
      let r := get_or_create_tag db kv.1 kv.2
      insertSongTag r.1 sid r.2 true)
    db

/-- The auto-tag attachment loop shared by `scan_directory` and
`add_single_file` (scanner.rs lines 186-193 and 268-276). -/
def attachAutoTags (db : Db) (sid : Nat) (rel : String) : Db :=
  attachFold sid (infer_tags rel) db

/-- The song row built for a newly inserted eligible file.  `audio` is the
`find_audio_match base_dir` function of the (fixed) companion-audio subtree,
keyed by the derived title. -/
def mkSongRow (audio : String → Option String) (id : Nat) (p : RelPath) : SongRow :=
  let ta := parse_filename p.file
  let am := audio ta.1
  ⟨id, ta.1, ta.2, pathString p, p.file, am.isSome, am, id⟩

/-- Insert-if-new for one eligible file: the shared body of the scanner's
per-entry work and of `add_single_file` after its eligibility checks. -/
def insertIfNew (audio : String → Option String) (db : Db) (p : RelPath) : Db :=
  let rel := pathString p
  if songPathExists db rel then db
  else
    let song := mkSongRow audio db.next_song_id p
    let db1 := { db with
      songs := db.songs ++ [song],
      next_song_id := db.next_song_id + 1 }
    attachAutoTags db1 song.id rel

/-- scanner.rs `add_single_file`: eligibility checks, then insert-if-new. -/
def add_single_file (audio : String → Option String) (db : Db) (p : RelPath) : Db :=
  if !extIsPdf p then db
  else if underSongindex p then db
  else insertIfNew audio db p

/-- `DELETE FROM songs WHERE dateipfad = ?1`, cascading to `song_tags`. -/
def deleteSongByPath (db : Db) (rel : String) : Db :=
  let removed := db.songs.filter (fun s => s.dateipfad == rel)
  { db with
    songs := db.songs.filter (fun s => !(s.dateipfad == rel)),
    song_tags := db.song_tags.filter
      (fun st => !(removed.any (fun s => s.id == st.song_id))) }

/-- scanner.rs `remove_single_file`. -/
def remove_single_file (db : Db) (p : RelPath) : Db :=
  deleteSongByPath db (pathString p)

/-- The relative-path strings of the eligible entries of a walk
(`found_paths` in `scan_directory`). -/
def foundPaths (entries : List RelPath) : List String :=
  (entries.filter scannerEligible).map pathString

/-- The walk-and-insert loop of `scan_directory` (lines 125-194): each
entry is skipped unless eligible, then inserted if its path is new. -/
def scanInsertPhase (audio : String → Option String) (db : Db)
    (entries : List RelPath) : Db :=
  entries.foldl
    (fun db p => if scannerEligible p then insertIfNew audio db p else db) db

/-- The deletion pass of `scan_directory` (lines 196-210): delete every
song whose relative path is not among the found paths, cascading to its
links. -/
def scanDeletePhase (db : Db) (found : List String) : Db :=
  let removed := db.songs.filter (fun s => !(found.contains s.dateipfad))
  { db with
    songs := db.songs.filter (fun s => found.contains s.dateipfad),
    song_tags := db.song_tags.filter
      (fun st => !(removed.any (fun s => s.id == st.song_id))) }

/-- The tag garbage collection of `scan_directory` (lines 212-216):
`DELETE FROM tags WHERE id NOT IN (SELECT DISTINCT tag_id FROM song_tags)`
(tag ids are unique by primary key). -/
def scanGcPhase (db : Db) : Db :=
  { db with
    tags := db.tags.filter
      (fun t => db.song_tags.any (fun st => st.tag_id == t.id)) }

/-- scanner.rs `scan_directory`: walk all entries (in traversal order),
insert-if-new each eligible one, then delete songs whose backing file is
gone, then garbage-collect tags with no links. -/
def scan_directory (audio : String → Option String) (db : Db)
    (entries : List RelPath) : Db :=
  scanGcPhase (scanDeletePhase (scanInsertPhase audio db entries) (foundPaths entries))

/-- db.rs `remove_tag_from_song`: delete the one link, then delete the tag
itself if no link references it any more (the cascade from that tag delete
has nothing left to remove). -/
def remove_tag_from_song (db : Db) (sid tid : Nat) : Db :=
  let db1 := { db with
    song_tags := db.song_tags.filter
      (fun st => !(st.song_id == sid && st.tag_id == tid)) }
  if db1.song_tags.any (fun st => st.tag_id == tid) then db1
  else { db1 with tags := db1.tags.filter (fun t => !(t.id == tid)) }

/-- db.rs `add_tag_to_song`: get-or-create the tag, then `INSERT OR IGNORE`
a manual (non-auto) link. -/
def add_tag_to_song (db : Db) (sid : Nat) (kategorie wert : String) : Db :=
  let r := get_or_create_tag db kategorie wert
  insertSongTag r.1 sid r.2 false

/-! ## TagQueryEngine (db.rs `query_songs`)

`LOWER` in SQLite is ASCII-only; `to_lowercase` in Rust is full Unicode.
Both are modelled by ASCII lower-casing (they agree on ASCII and no claim
depends on non-ASCII case folding).  `LIKE '%x%'` is modelled as substring
containment (no claim involves the `%`/`_` wildcard characters).  Song rows
are pairwise distinct under the primary key, so the `SELECT DISTINCT` over
the vestigial joins returns each passing song once, in the `ORDER BY`
order; the sort is modelled by insertion sort on the `ORDER BY` key. -/

inductive SortMode where
  | Title
  | Artist
  | Recent
  | Untagged
deriving DecidableEq

/-- ASCII lower-casing of a string. -/
def lowerStr (s : String) : String := (lowerAscii s.toList).asString

/-- The free-text search filter of `query_songs` (db.rs lines 160-166). -/
def matchesSearch (search : String) (s : SongRow) : Bool :=
  search.isEmpty ||
    (let pat := lowerStr search
     strContains (lowerStr s.titel) pat ||
       (match s.artist with
        | some a => strContains (lowerStr a) pat
        | none => false) ||
       strContains (lowerStr s.dateiname) pat)

/-- Scalar subquery `SELECT kategorie FROM tags WHERE id = tag_id`
(`none` models SQL NULL when no such tag row exists). -/
def tagCategoryOf (db : Db) (tid : Nat) : Option String :=
  (db.tags.find? (fun t => t.id == tid)).map (fun t => t.kategorie)

/-- `SELECT COUNT(DISTINCT kategorie) FROM tags WHERE id IN (sel)`, as the
deduplicated category list of the selected tag rows. -/
def selCats (db : Db) (sel : List Nat) : List String :=
  ((db.tags.filter (fun t => sel.contains t.id)).map (fun t => t.kategorie)).dedup

/-- The song's `song_tags` rows whose `tag_id` is selected (the `GROUP BY
song_id` group of this song in the `IN` subquery). -/
def selLinks (db : Db) (sel : List Nat) (s : SongRow) : List SongTagRow :=
  db.song_tags.filter (fun st => st.song_id == s.id && sel.contains st.tag_id)

/-- `COUNT(DISTINCT (SELECT kategorie FROM tags WHERE id = tag_id))` over
the song's group; `COUNT(DISTINCT ·)` ignores NULLs, which `filterMap`
models. -/
def songCats (db : Db) (sel : List Nat) (s : SongRow) : List String :=
  ((selLinks db sel s).filterMap (fun st => tagCategoryOf db st.tag_id)).dedup

/-- The tag-selection filter of `query_songs` (db.rs lines 168-189): the
song has at least one link to a selected tag (its group exists), and the
number of distinct categories among those linked selected tags equals the
number of distinct categories among all selected tags. -/
def tagFilterOk (db : Db) (sel : List Nat) (s : SongRow) : Bool :=
  sel.isEmpty ||
    (!(selLinks db sel s).isEmpty &&
      (songCats db sel s).length == (selCats db sel).length)

/-- `s.id NOT IN (SELECT DISTINCT song_id FROM song_tags WHERE
auto_generated = 0)`: the song has no manual link. -/
def noManualLinks (db : Db) (sid : Nat) : Bool :=
  !(db.song_tags.any (fun st => st.song_id == sid && st.auto_generated == false))

/-- The conjunction of the dynamically assembled `WHERE` filters. -/
def songPasses (db : Db) (search : String) (sel : List Nat)
    (hasAudio untagged : Bool) (s : SongRow) : Bool :=
  matchesSearch search s && tagFilterOk db sel s &&
    (!hasAudio || s.has_audio) && (!untagged || noManualLinks db s.id)

/-- `SELECT COUNT(*) FROM song_tags WHERE song_id = sid`. -/
def linkCount (db : Db) (sid : Nat) : Nat :=
  (db.song_tags.filter (fun st => st.song_id == sid)).length

/-- `COALESCE(s.artist, 'zzz')`. -/
def artistKey (s : SongRow) : String := s.artist.getD "zzz"

/-- The `ORDER BY` key of `query_songs` for each sort mode (db.rs lines
201-209).  SQLite's BINARY collation compares UTF-8 bytes, which coincides
with the code-point lexicographic order on the character lists used here. -/
def songOrder (db : Db) (m : SortMode) (a b : SongRow) : Prop :=
  match m with
  | SortMode.Title => a.titel.data ≤ b.titel.data
  | SortMode.Artist =>
    (artistKey a).data < (artistKey b).data ∨
      ((artistKey a).data = (artistKey b).data ∧ a.titel.data ≤ b.titel.data)
  | SortMode.Recent => b.created_at ≤ a.created_at
  | SortMode.Untagged =>
    linkCount db a.id < linkCount db b.id ∨
      (linkCount db a.id = linkCount db b.id ∧ a.titel.data ≤ b.titel.data)

instance (db : Db) (m : SortMode) : DecidableRel (songOrder db m) :=
  fun a b =>
    match m with
    | SortMode.Title => inferInstanceAs (Decidable (a.titel.data ≤ b.titel.data))
    | SortMode.Artist => inferInstanceAs (Decidable (_ ∨ (_ ∧ _)))
    | SortMode.Recent => inferInstanceAs (Decidable (b.created_at ≤ a.created_at))
    | SortMode.Untagged => inferInstanceAs (Decidable (_ ∨ (_ ∧ _)))

/-- db.rs `query_songs` (the returned rows; the per-song `tags` attachment
of the source is a per-row decoration that does not affect membership or
order and is modelled by `songAbs` below). -/
def query_songs (db : Db) (search : String) (sel : List Nat)
    (hasAudio untagged : Bool) (m : SortMode) : List SongRow :=
  List.insertionSort (songOrder db m)
    (db.songs.filter (songPasses db search sel hasAudio untagged))

/-! ## Tag groups and stats (db.rs `get_all_tags`, `get_stats`) -/

structure TagEntry where
  id : Nat
  wert : String
  count : Nat
deriving DecidableEq

structure TagGroup where
  kategorie : String
  tags : List TagEntry
deriving DecidableEq

/-- `COUNT(st.song_id)` of the `LEFT JOIN` group of one tag. -/
def tagUsageCount (db : Db) (tid : Nat) : Nat :=
  (db.song_tags.filter (fun st => st.tag_id == tid)).length

/-- The SQL row order `ORDER BY t.kategorie, cnt DESC, t.wert`
(BINARY collation = code-point lexicographic order). -/
def tagRowLe (db : Db) (a b : TagRow) : Prop :=
  a.kategorie.data < b.kategorie.data ∨
    (a.kategorie.data = b.kategorie.data ∧
      (tagUsageCount db b.id < tagUsageCount db a.id ∨
        (tagUsageCount db a.id = tagUsageCount db b.id ∧ a.wert.data ≤ b.wert.data)))

instance (db : Db) : DecidableRel (tagRowLe db) :=
  fun _a _b => inferInstanceAs (Decidable (_ ∨ (_ ∧ (_ ∨ (_ ∧ _)))))

/-- The `GROUP BY t.id` result rows of `get_all_tags`, sorted as the SQL
orders them (tag ids unique by primary key, so one row per tag). -/
def sortedTagRows (db : Db) : List TagRow :=
  List.insertionSort (tagRowLe db) db.tags

/-- The entries pushed for one category, in SQL row order. -/
def groupEntries (db : Db) (cat : String) : List TagEntry :=
  ((sortedTagRows db).filter (fun t => t.kategorie == cat)).map
    (fun t => ⟨t.id, t.wert, tagUsageCount db t.id⟩)

/-- The fixed preferred category sequence (db.rs lines 312-320). -/
def category_order : List String :=
  ["instrument", "schwierigkeit", "stil", "technik", "artist", "stimmung", "kapo"]

/-- db.rs `get_all_tags`.  The leftover (non-preferred) groups are drained
from a `std::collections::HashMap`, whose iteration order is unspecified
(randomly seeded); that order is made explicit as the `iterOrder`
parameter: the code's behaviour is `get_all_tags db iterOrder` for some
enumeration `iterOrder` of the leftover categories. -/
def get_all_tags (db : Db) (iterOrder : List String) : List TagGroup :=
  let preferred := category_order.filterMap
    (fun c =>
      if db.tags.any (fun t => t.kategorie == c) then
        some (⟨c, groupEntries db c⟩ : TagGroup)
      else none)
  let leftover := iterOrder.filterMap
    (fun c =>
      if db.tags.any (fun t => t.kategorie == c) && !(category_order.contains c) then
        some (⟨c, groupEntries db c⟩ : TagGroup)
      else none)
  preferred ++ leftover

structure Stats where
  total_songs : Nat
  songs_with_audio : Nat
  untagged_songs : Nat
deriving DecidableEq

/-- db.rs `get_stats`: the untagged count uses `id NOT IN (SELECT DISTINCT
song_id FROM song_tags)` — links of any kind, auto-generated included. -/
def get_stats (db : Db) : Stats :=
  ⟨db.songs.length,
    (db.songs.filter (fun s => s.has_audio)).length,
    (db.songs.filter
      (fun s => !(db.song_tags.any (fun st => st.song_id == s.id)))).length⟩

/-! ## The incremental watcher's worker (scanner.rs `start_watcher`)

The worker receives forwarded paths in order and checks `path.exists()` at
processing time: it adds when the path exists and removes when it does not.
Events are modelled as the filesystem changes themselves; the filesystem
is the list of present files, updated by each event before the worker
processes the event's path. -/

inductive FsEvent where
  | create (p : RelPath)
  | remove (p : RelPath)
deriving DecidableEq

def FsEvent.path : FsEvent → RelPath
  | .create p => p
  | .remove p => p

/-- Effect of the filesystem change itself. -/
def applyFsEvent (fs : List RelPath) : FsEvent → List RelPath
  | .create p => if fs.contains p then fs else fs ++ [p]
  | .remove p => fs.filter (fun q => !(q == p))

/-- One worker iteration: apply the filesystem change, then process the
path — `add_single_file` when it exists, `remove_single_file` when not. -/
def workerStep (audio : String → Option String)
    (st : List RelPath × Db) (e : FsEvent) : List RelPath × Db :=
  let fs := applyFsEvent st.1 e
  (fs,
    if fs.contains e.path then add_single_file audio st.2 e.path
    else remove_single_file st.2 e.path)

/-- The worker loop over a sequence of events. -/
def processEvents (audio : String → Option String)
    (fs : List RelPath) (db : Db) (events : List FsEvent) : List RelPath × Db :=
  events.foldl (workerStep audio) (fs, db)

/-! ## Song-set abstraction

The claims compare final *Song sets* — titles, artists, audio links and
tag links — across databases whose auto-assigned row ids differ.  The
abstraction keeps everything of a song except its id and timestamps, and
resolves each of its links to the `(kategorie, wert)` pair of the linked
tag plus the `auto_generated` flag. -/

structure SongAbs where
  titel : String
  artist : Option String
  dateiname : String
  has_audio : Bool
  audio_pfad : Option String
  tags : List (Option (String × String) × Bool)
deriving DecidableEq

/-- One link, id-free: the linked tag's pair (if the tag exists) and flag. -/
def linkAbs (db : Db) (st : SongTagRow) : Option (String × String) × Bool :=
  ((db.tags.find? (fun t => t.id == st.tag_id)).map (fun t => (t.kategorie, t.wert)),
    st.auto_generated)

/-- Id-free view of one song row with its resolved links. -/
def songAbs (db : Db) (s : SongRow) : SongAbs :=
  ⟨s.titel, s.artist, s.dateiname, s.has_audio, s.audio_pfad,
    (db.song_tags.filter (fun st => st.song_id == s.id)).map (linkAbs db)⟩

/-- The abstract song stored under a relative path, if any. -/
def songAbsAt (db : Db) (rel : String) : Option SongAbs :=
  (db.songs.find? (fun s => s.dateipfad == rel)).map (songAbs db)

/-- A case-insensitive strip of the `.pdf` extension, as the claim's words
("strips a known file-extension suffix case-insensitively") prescribe;
used only to exhibit the divergence from `parse_filename`'s exact-case
`trim_end_matches(".pdf").trim_end_matches(".PDF")`. -/
def stripExtCaseInsensitive (s : List Char) : List Char :=
  if lowerAscii (s.drop (s.length - 4)) == ".pdf".toList then
    s.take (s.length - 4)
  else s

/-- The `(category, value)` pair of a rule. -/
def pairOf (t : AutoTag) : String × String := (t.kategorie, t.wert)

/-- First-occurrence deduplication relative to an already-seen set. -/
def dedupKeep (seen : List (String × String)) :
    List (String × String) → List (String × String)
  | [] => []
  | p :: rest =>
    if p ∈ seen then dedupKeep seen rest else p :: dedupKeep (p :: seen) rest

/-- First-occurrence deduplication (first match wins, order preserved). -/
def dedupFirst (l : List (String × String)) : List (String × String) :=
  dedupKeep [] l

/-- The inferencer as the spec describes it (§4.3): the pairs of the rules
whose pattern occurs in the path, in table order, deduplicated keeping
first occurrences; then the acoustic-guitar fallback when no instrument
tag was emitted. -/
def specInferTags (path : String) : List (String × String) :=
  let base := dedupFirst
    ((AUTO_TAGS.filter (fun t => strContains path t.pattern)).map pairOf)
  if strContains path "00 gitarre" && !(base.any (fun kv => kv.1 == "instrument")) then
    base ++ [("instrument", "Akustik-Gitarre")]
  else base

/-- C6 example path: the substring "E-Gitarre" occurs twice. -/
def egPath : String := "Gitarrenschule/E-Gitarre/Songs E-Gitarre/Song.pdf"

/-- The `(kategorie, wert)` pair of a tag row. -/
def pairTag (t : TagRow) : String × String := (t.kategorie, t.wert)

/-- The id under which a `(kategorie, wert)` pair is stored (the id
`get_or_create_tag` returns when the pair is present). -/
def tagIdLookup (tags : List TagRow) (kv : String × String) : Nat :=
  ((tags.find? (fun t => t.kategorie == kv.1 && t.wert == kv.2)).map TagRow.id).getD 0

/-- Well-formedness of a tag table that evolved from `base` (whose ids lie
below `bn`) by get-or-create only: it extends `base` with rows whose ids
were allocated from `bn` on, all ids lie below the next free id `n`, and
ids and `(kategorie, wert)` pairs are unique (the table's primary key and
UNIQUE constraints). -/
def TagsWf (base : List TagRow) (bn : Nat) (tags : List TagRow) (n : Nat) : Prop :=
  (∃ tl, tags = base ++ tl ∧ ∀ t ∈ tl, bn ≤ t.id) ∧
  (∀ t ∈ tags, t.id < n) ∧
  (tags.map TagRow.id).Nodup ∧
  (tags.map pairTag).Nodup ∧
  bn ≤ n

/-- No existing link of song `sid` collides with the id under which a pair
of `l` is stored — the invariant that lets the attachment loop's
`INSERT OR IGNORE` always insert. -/
def NoClash (db : Db) (sid : Nat) (l : List (String × String)) : Prop :=
  ∀ st ∈ db.song_tags, st.song_id = sid →
    ∀ kv ∈ l, kv ∈ db.tags.map pairTag → st.tag_id ≠ tagIdLookup db.tags kv

/-- The links attached for one newly inserted song, described relative to a
tag table: one auto-generated link per inferred pair, resolved by pair
lookup. -/
def linksFor (tags : List TagRow) (pi : RelPath × Nat) : List SongTagRow :=
  (infer_tags (pathString pi.1)).map (fun kv => ⟨pi.2, tagIdLookup tags kv, true⟩)

/-- The invariant tying a worker state `(fs, db)` to the initial index
`db₀` and initial filesystem `fs₀`: the filesystem grew by a list of added
files and the index grew by exactly the corresponding song rows (with
fresh, increasing ids) and their auto-tag links, the tag table evolved by
get-or-create only, and every inferred pair of an added song is present in
the tag table. -/
def WorkerInv (audio : String → Option String) (db₀ : Db) (fs₀ : List RelPath)
    (evPaths : List RelPath) (st : List RelPath × Db) : Prop :=
  ∃ added : List (RelPath × Nat),
    st.1 = fs₀ ++ added.map Prod.fst ∧
    (added.map Prod.fst).Nodup ∧
    (∀ pi ∈ added, pi.1 ∈ evPaths) ∧
    (added.map Prod.snd).Nodup ∧
    (∀ pi ∈ added, db₀.next_song_id ≤ pi.2 ∧ pi.2 < st.2.next_song_id) ∧
    db₀.next_song_id ≤ st.2.next_song_id ∧
    st.2.songs = db₀.songs ++ added.map (fun pi => mkSongRow audio pi.2 pi.1) ∧
    st.2.song_tags = db₀.song_tags ++ added.flatMap (linksFor st.2.tags) ∧
    (∀ pi ∈ added, ∀ kv ∈ infer_tags (pathString pi.1), kv ∈ st.2.tags.map pairTag) ∧
    (∀ l ∈ st.2.song_tags, l.song_id < st.2.next_song_id ∧ l.tag_id < st.2.next_tag_id) ∧
    TagsWf db₀.tags db₀.next_tag_id st.2.tags st.2.next_tag_id

/-- Global assumptions of the convergence argument: the initial index's row
ids are consistent with the next-id counters, its tag table satisfies the
schema's uniqueness constraints, every event path is an eligible file that
is new (neither on disk initially nor indexed), and distinct relevant
paths render to distinct relative-path strings. -/
def C1Ctx (db₀ : Db) (fs₀ evPaths : List RelPath) : Prop :=
  (∀ s ∈ db₀.songs, s.id < db₀.next_song_id) ∧
  (∀ t ∈ db₀.tags, t.id < db₀.next_tag_id) ∧
  (∀ st ∈ db₀.song_tags,
    st.song_id < db₀.next_song_id ∧ st.tag_id < db₀.next_tag_id) ∧
  (db₀.tags.map TagRow.id).Nodup ∧
  (db₀.tags.map pairTag).Nodup ∧
  (∀ p ∈ evPaths, scannerEligible p = true ∧ p ∉ fs₀ ∧
    (∀ s ∈ db₀.songs, s.dateipfad ≠ pathString p)) ∧
  (∀ p q, p ∈ fs₀ ++ evPaths → q ∈ fs₀ ++ evPaths →
    pathString p = pathString q → p = q)

/-- The spec's AND-across-categories / OR-within-category tag-filter
semantics (§4.7): for every category containing at least one selected tag
— equivalently, for every selected tag `t` — the song has a link to some
selected tag of `t`'s category. -/
def specTagPred (db : Db) (sel : List Nat) (s : SongRow) : Prop :=
  ∀ t ∈ db.tags, t.id ∈ sel →
    ∃ st ∈ db.song_tags, st.song_id = s.id ∧ st.tag_id ∈ sel ∧
      ∃ u ∈ db.tags, u.id = st.tag_id ∧ u.kategorie = t.kategorie

/-! ## Order-typeclass instances for the `ORDER BY` relations -/

instance (db : Db) (m : SortMode) : IsTotal SongRow (songOrder db m) := by
  constructor
  intro a b
  cases m <;> simp only [songOrder]
  · exact le_total a.titel.data b.titel.data
  · rcases lt_trichotomy (artistKey a).data (artistKey b).data with h | h | h
    · exact Or.inl (Or.inl h)
    · rcases le_total a.titel.data b.titel.data with h1 | h1
      · exact Or.inl (Or.inr ⟨h, h1⟩)
      · exact Or.inr (Or.inr ⟨h.symm, h1⟩)
    · exact Or.inr (Or.inl h)
  · exact le_total b.created_at a.created_at
  · rcases lt_trichotomy (linkCount db a.id) (linkCount db b.id) with h | h | h
    · exact Or.inl (Or.inl h)
    · rcases le_total a.titel.data b.titel.data with h1 | h1
      · exact Or.inl (Or.inr ⟨h, h1⟩)
      · exact Or.inr (Or.inr ⟨h.symm, h1⟩)
    · exact Or.inr (Or.inl h)

instance (db : Db) (m : SortMode) : IsTrans SongRow (songOrder db m) := by
  constructor
  intro a b c hab hbc
  cases m <;> simp only [songOrder] at *
  · exact le_trans hab hbc
  · rcases hab with h1 | ⟨h1, h1t⟩ <;> rcases hbc with h2 | ⟨h2, h2t⟩
    · exact Or.inl (lt_trans h1 h2)
    · exact Or.inl (h2 ▸ h1)
    · exact Or.inl (h1 ▸ h2)
    · exact Or.inr ⟨h1.trans h2, le_trans h1t h2t⟩
  · exact le_trans hbc hab
  · rcases hab with h1 | ⟨h1, h1t⟩ <;> rcases hbc with h2 | ⟨h2, h2t⟩
    · exact Or.inl (lt_trans h1 h2)
    · exact Or.inl (h2 ▸ h1)
    · exact Or.inl (h1 ▸ h2)
    · exact Or.inr ⟨h1.trans h2, le_trans h1t h2t⟩

instance (db : Db) : IsTotal TagRow (tagRowLe db) := by
  constructor
  intro a b
  simp only [tagRowLe]
  rcases lt_trichotomy a.kategorie.data b.kategorie.data with h | h | h
  · exact Or.inl (Or.inl h)
  · rcases lt_trichotomy (tagUsageCount db a.id) (tagUsageCount db b.id) with h2 | h2 | h2
    · exact Or.inr (Or.inr ⟨h.symm, Or.inl h2⟩)
    · rcases le_total a.wert.data b.wert.data with h3 | h3
      · exact Or.inl (Or.inr ⟨h, Or.inr ⟨h2, h3⟩⟩)
      · exact Or.inr (Or.inr ⟨h.symm, Or.inr ⟨h2.symm, h3⟩⟩)
    · exact Or.inl (Or.inr ⟨h, Or.inl h2⟩)
  · exact Or.inr (Or.inl h)

instance (db : Db) : IsTrans TagRow (tagRowLe db) := by
  constructor
  intro a b c hab hbc
  simp only [tagRowLe] at *
  rcases hab with h1 | ⟨h1, h1i⟩ <;> rcases hbc with h2 | ⟨h2, h2i⟩
  · exact Or.inl (lt_trans h1 h2)
  · exact Or.inl (h2 ▸ h1)
  · exact Or.inl (h1 ▸ h2)
  · refine Or.inr ⟨h1.trans h2, ?_⟩
    rcases h1i with g1 | ⟨g1, g1w⟩ <;> rcases h2i with g2 | ⟨g2, g2w⟩
    · exact Or.inl (lt_trans g2 g1)
    · exact Or.inl (g2 ▸ g1)
    · exact Or.inl (g1 ▸ g2)
    · exact Or.inr ⟨g1.trans g2, le_trans g1w g2w⟩

/-! ## Concrete fixtures for counterexamples and witnesses -/

/-- C9 counterexample state: two in-use unrecognized categories "beta" and
"alpha" plus an orphan tag (zero links) in category "alpha". -/
def dbC9 : Db :=
  { songs := [⟨1, "T", none, "t.pdf", "t.pdf", false, none, 1⟩],
    tags := [⟨1, "beta", "X"⟩, ⟨2, "alpha", "Y"⟩, ⟨3, "alpha", "Orphan"⟩],
    song_tags := [⟨1, 1, false⟩, ⟨1, 2, false⟩],
    next_song_id := 2,
    next_tag_id := 4 }

/-- A path under a hidden (dot-prefixed) directory with the document
extension: the scanner skips it, the watcher indexes it. -/
def hiddenPathEx : RelPath := ⟨[".versions"], "song.pdf"⟩

/-- An eligible, non-hidden path used by witnesses. -/
def plainPathEx : RelPath := ⟨["00 gitarre"], "Song.pdf"⟩

/-- C7 counterexample state: tag 1 is an orphan left behind by an earlier
incremental removal (scanner.rs `remove_single_file` cascades the links of
the removed song but never garbage-collects tags); tag 2 is linked to the
one remaining song. -/
def dbC7 : Db :=
  { songs := [⟨1, "T", none, "t.pdf", "t.pdf", false, none, 1⟩],
    tags := [⟨1, "stil", "Jazz"⟩, ⟨2, "stil", "Blues"⟩],
    song_tags := [⟨1, 2, false⟩],
    next_song_id := 2,
    next_tag_id := 3 }

/-- C8 counterexample state: one song with no artist, one whose artist
sorts above the `'zzz'` placeholder. -/
def songC8a : SongRow := ⟨1, "Aaa", none, "a.pdf", "a.pdf", false, none, 1⟩

def songC8b : SongRow := ⟨2, "Bbb", some "Übermensch", "b.pdf", "b.pdf", false, none, 2⟩

def dbC8 : Db :=
  { songs := [songC8a, songC8b], tags := [], song_tags := [],
    next_song_id := 3, next_tag_id := 1 }

/-- C3 witness fixture: one indexed song whose metadata was edited by the
user, whose backing file is among the walked entries. -/
def songC3 : SongRow :=
  ⟨1, "Edited Title", some "Edited Artist", "00 gitarre/a.pdf", "a.pdf",
    false, none, 1⟩

def dbC3 : Db :=
  { songs := [songC3], tags := [], song_tags := [],
    next_song_id := 2, next_tag_id := 1 }

def entriesC3 : List RelPath :=
  [⟨["00 gitarre"], "a.pdf"⟩, ⟨["00 gitarre"], "b.pdf"⟩]

/-- C4 fixture songs: Guitar only, Ukulele only, Guitar+Jazz, Jazz only,
no tags (titles chosen so the Title order is the listing order). -/
def songC4g : SongRow := ⟨1, "A-Guitar", none, "g.pdf", "g.pdf", false, none, 1⟩

def songC4u : SongRow := ⟨2, "B-Uke", none, "u.pdf", "u.pdf", false, none, 2⟩

def songC4both : SongRow := ⟨3, "C-Both", none, "gj.pdf", "gj.pdf", false, none, 3⟩

def songC4j : SongRow := ⟨4, "D-Jazz", none, "j.pdf", "j.pdf", false, none, 4⟩

def songC4n : SongRow := ⟨5, "E-None", none, "n.pdf", "n.pdf", false, none, 5⟩

/-- C4 fixture state: tags instrument=Guitar (10), instrument=Ukulele (11),
stil=Jazz (20), with the links described on the fixture songs. -/
def dbC4 : Db :=
  { songs := [songC4g, songC4u, songC4both, songC4j, songC4n],
    tags := [⟨10, "instrument", "Guitar"⟩, ⟨11, "instrument", "Ukulele"⟩,
             ⟨20, "stil", "Jazz"⟩],
    song_tags := [⟨1, 10, false⟩, ⟨2, 11, false⟩, ⟨3, 10, false⟩,
                  ⟨3, 20, false⟩, ⟨4, 20, false⟩],
    next_song_id := 6,
    next_tag_id := 21 }

/-- C10 fixture: a song whose only link is auto-generated. -/
def songC10 : SongRow := ⟨1, "T", none, "t.pdf", "t.pdf", false, none, 1⟩

def dbC10 : Db :=
  { songs := [songC10],
    tags := [⟨1, "stil", "Jazz"⟩],
    song_tags := [⟨1, 1, true⟩],
    next_song_id := 2,
    next_tag_id := 2 }

/-- C7 witness state: tag 1 is linked from two songs, so removing one of
the two links must not garbage-collect it. -/
def dbC7w : Db :=
  { songs := [⟨1, "A", none, "a.pdf", "a.pdf", false, none, 1⟩,
              ⟨2, "B", none, "b.pdf", "b.pdf", false, none, 2⟩],
    tags := [⟨1, "stil", "Jazz"⟩],
    song_tags := [⟨1, 1, false⟩, ⟨2, 1, false⟩],
    next_song_id := 3,
    next_tag_id := 2 }

/-- C1 witness fixtures: no companion audio, empty initial index and
filesystem, a single creation event for an eligible file. -/
def audioNone : String → Option String := fun _ => none

def dbEmpty : Db := ⟨[], [], [], 0, 0⟩

def evC1 : List FsEvent := [FsEvent.create plainPathEx]

/-! # Lemmas -/

theorem mem_query_songs (db : Db) (search : String) (sel : List Nat)
    (ha ut : Bool) (m : SortMode) (s : SongRow) :
    s ∈ query_songs db search sel ha ut m ↔
      s ∈ db.songs ∧ songPasses db search sel ha ut s = true := by
  unfold query_songs
  rw [List.Perm.mem_iff (List.perm_insertionSort _ _)]
  exact List.mem_filter

theorem songPasses_untagged_only (db : Db) (s : SongRow) :
    songPasses db "" [] false true s = noManualLinks db s.id := rfl

theorem noManualLinks_iff (db : Db) (sid : Nat) :
    noManualLinks db sid = true ↔
      ∀ st ∈ db.song_tags, st.song_id = sid → st.auto_generated = true := by
  unfold noManualLinks
  rw [Bool.not_eq_true', List.any_eq_false]
  simp only [Bool.and_eq_true, beq_iff_eq, not_and, Bool.not_eq_false]

theorem untagged_stats_count (db : Db) :
    (get_stats db).untagged_songs
      = (db.songs.filter (fun s => linkCount db s.id == 0)).length := by
  unfold get_stats
  refine congrArg List.length (List.filter_congr ?_)
  intro s _
  unfold linkCount
  cases h : db.song_tags.any (fun st => st.song_id == s.id) with
  | false =>
    rw [List.any_eq_false] at h
    have hf : db.song_tags.filter (fun st => st.song_id == s.id) = [] := by
      rw [List.filter_eq_nil_iff]
      exact h
    simp [hf]
  | true =>
    rw [List.any_eq_true] at h
    obtain ⟨st, hst, hp⟩ := h
    have hne : db.song_tags.filter (fun st => st.song_id == s.id) ≠ [] := by
      intro hnil
      rw [List.filter_eq_nil_iff] at hnil
      exact hnil st hst hp
    simp only [Bool.not_true]
    symm
    rw [beq_eq_false_iff_ne]
    intro hlen
    exact hne (List.length_eq_zero.mp hlen)

/-! # Claim theorems -/

/-- C2 (counterexample): a document file under a hidden (dot-prefixed)
directory is indexed by the incremental watcher but skipped by the
scanner, so the two eligibility predicates are not identical as the claim
states. -/
theorem c2_counterexample :
    watcherEligible hiddenPathEx = true ∧ scannerEligible hiddenPathEx = false := by
  decide

/-- C2 (amended): the watcher's eligibility predicate (notifier stage plus
`add_single_file`) agrees with the scanner's on every path that contains no
hidden (dot-prefixed) segment — both require the case-insensitive `pdf`
extension and exclude the `songindex` metadata subdirectory — but the
watcher performs no hidden-segment check of its own. -/
theorem c2_eligibility_agree_on_unhidden (p : RelPath)
    (h : isHiddenPath p = false) : watcherEligible p = scannerEligible p := by
  unfold watcherEligible scannerEligible notifierForwards addStageEligible
  rw [h]
  cases underSongindex p <;> cases extIsPdf p <;> rfl

theorem c2_eligibility_agree_on_unhidden_witness :
    isHiddenPath plainPathEx = false ∧
      watcherEligible plainPathEx = scannerEligible plainPathEx :=
  ⟨by decide, c2_eligibility_agree_on_unhidden plainPathEx (by decide)⟩

/-- C7 (counterexample): `remove_tag_from_song` garbage-collects only the
tag whose link it removed.  In a state holding an orphan tag left behind by
an earlier incremental file removal (allowed by the spec, §4.6), a
`remove_tag_from_song` call on a different tag completes while the orphan —
a Tag row with zero SongTag links — remains, refuting the claim that no
such row remains after every call. -/
theorem c7_counterexample :
    ∃ t ∈ (remove_tag_from_song dbC7 1 2).tags,
      ∀ st ∈ (remove_tag_from_song dbC7 1 2).song_tags, st.tag_id ≠ t.id := by
  decide

theorem scan_no_orphan_tags (audio : String → Option String) (db : Db)
    (entries : List RelPath) :
    ∀ t ∈ (scan_directory audio db entries).tags,
      ∃ st ∈ (scan_directory audio db entries).song_tags, st.tag_id = t.id := by
  intro t ht
  unfold scan_directory scanGcPhase at ht ⊢
  rw [List.mem_filter] at ht
  obtain ⟨-, hp⟩ := ht
  rw [List.any_eq_true] at hp
  obtain ⟨st, hst, he⟩ := hp
  exact ⟨st, hst, by simpa using he⟩

theorem remove_tag_targeted (db : Db) (sid tid : Nat) :
    ∀ t ∈ (remove_tag_from_song db sid tid).tags, t.id = tid →
      ∃ st ∈ (remove_tag_from_song db sid tid).song_tags, st.tag_id = t.id := by
  intro t ht htid
  unfold remove_tag_from_song at ht ⊢
  by_cases hb : (db.song_tags.filter
      (fun st => !(st.song_id == sid && st.tag_id == tid))).any
        (fun st => st.tag_id == tid) = true
  · simp only [hb, if_true] at ht ⊢
    rw [List.any_eq_true] at hb
    obtain ⟨st, hst, he⟩ := hb
    exact ⟨st, hst, by simpa [htid] using he⟩
  · rw [Bool.not_eq_true] at hb
    simp only [hb, Bool.false_eq_true, if_false] at ht
    rw [List.mem_filter] at ht
    obtain ⟨-, hne⟩ := ht
    simp [htid] at hne

theorem remove_tag_preserves_clean (db : Db) (sid tid : Nat)
    (hclean : ∀ t ∈ db.tags, ∃ st ∈ db.song_tags, st.tag_id = t.id) :
    ∀ t ∈ (remove_tag_from_song db sid tid).tags,
      ∃ st ∈ (remove_tag_from_song db sid tid).song_tags, st.tag_id = t.id := by
  intro t ht
  by_cases htid : t.id = tid
  · exact remove_tag_targeted db sid tid t ht htid
  · unfold remove_tag_from_song at ht ⊢
    have htdb : t ∈ db.tags := by
      by_cases hb : (db.song_tags.filter
          (fun st => !(st.song_id == sid && st.tag_id == tid))).any
            (fun st => st.tag_id == tid) = true
      · simpa only [hb, if_true] using ht
      · rw [Bool.not_eq_true] at hb
        simp only [hb, Bool.false_eq_true, if_false] at ht
        exact (List.mem_filter.mp ht).1
    obtain ⟨st, hst, hstid⟩ := hclean t htdb
    have hkeep : st ∈ db.song_tags.filter
        (fun st => !(st.song_id == sid && st.tag_id == tid)) := by
      rw [List.mem_filter]
      refine ⟨hst, ?_⟩
      simp only [Bool.not_eq_eq_eq_not, Bool.not_true, Bool.and_eq_false_iff]
      right
      simp [hstid, htid]
    by_cases hb : (db.song_tags.filter
        (fun st => !(st.song_id == sid && st.tag_id == tid))).any
          (fun st => st.tag_id == tid) = true
    · simp only [hb, if_true]
      exact ⟨st, hkeep, hstid⟩
    · rw [Bool.not_eq_true] at hb
      simp only [hb, Bool.false_eq_true, if_false]
      exact ⟨st, hkeep, hstid⟩

/-- C7 (amended): after `scan_directory` completes no Tag row with zero
SongTag links remains; `remove_tag_from_song` never leaves the *targeted*
tag with zero links (removing the last link referencing it deletes it);
and on any state with no orphaned tags, `remove_tag_from_song` leaves no
orphaned tag.  (Pre-existing orphans from incremental removals survive
calls that target other tags.) -/
theorem c7_orphan_tag_cleanup :
    (∀ (audio : String → Option String) (db : Db) (entries : List RelPath),
      ∀ t ∈ (scan_directory audio db entries).tags,
        ∃ st ∈ (scan_directory audio db entries).song_tags, st.tag_id = t.id)
    ∧ (∀ (db : Db) (sid tid : Nat),
      ∀ t ∈ (remove_tag_from_song db sid tid).tags, t.id = tid →
        ∃ st ∈ (remove_tag_from_song db sid tid).song_tags, st.tag_id = t.id)
    ∧ (∀ (db : Db) (sid tid : Nat),
      (∀ t ∈ db.tags, ∃ st ∈ db.song_tags, st.tag_id = t.id) →
      ∀ t ∈ (remove_tag_from_song db sid tid).tags,
        ∃ st ∈ (remove_tag_from_song db sid tid).song_tags, st.tag_id = t.id) :=
  ⟨scan_no_orphan_tags, remove_tag_targeted, remove_tag_preserves_clean⟩

theorem c7_orphan_tag_cleanup_witness :
    ∃ st ∈ (remove_tag_from_song dbC7w 1 1).song_tags, st.tag_id = 1 :=
  c7_orphan_tag_cleanup.2.1 dbC7w 1 1 ⟨1, "stil", "Jazz"⟩ (by decide) rfl

/-- C8 (counterexample): `ORDER BY COALESCE(s.artist, 'zzz')` sorts a
missing artist as the literal string `"zzz"`, so the song with no artist
comes *before* the song whose artist `"Übermensch"` sorts above `"zzz"`
('Ü' = U+00DC &gt; 'z' = U+007A) — refuting "missing artist placed after
all Songs that have an artist".  The final conjunct is the claim's
ordering property itself (once an artist is missing, every later row's
artist is missing too), negated. -/
theorem c8_counterexample :
    query_songs dbC8 "" [] false false SortMode.Artist = [songC8a, songC8b] ∧
    songC8a.artist = none ∧ songC8b.artist ≠ none ∧
    ¬ (query_songs dbC8 "" [] false false SortMode.Artist).Pairwise
        (fun a b => a.artist = none → b.artist = none) := by
  have hq : query_songs dbC8 "" [] false false SortMode.Artist
      = [songC8a, songC8b] := by decide
  refine ⟨hq, rfl, by decide, ?_⟩
  rw [hq]
  intro h
  rw [List.pairwise_cons] at h
  have := h.1 songC8b (by simp) rfl
  simp [songC8b] at this

/-- C8 (amended): the Artist sort orders the result by the key
`(COALESCE(artist, "zzz"), titel)`: lexicographically by artist with a
missing artist ranked as the placeholder string `"zzz"` (after artists
below `"zzz"`, before artists above it), with title as secondary key; the
result is a permutation of the songs passing the filters. -/
theorem c8_artist_sort (db : Db) (search : String) (sel : List Nat)
    (ha ut : Bool) :
    (query_songs db search sel ha ut SortMode.Artist).Sorted
        (songOrder db SortMode.Artist) ∧
    List.Perm (query_songs db search sel ha ut SortMode.Artist)
      (db.songs.filter (songPasses db search sel ha ut)) :=
  ⟨List.sorted_insertionSort _ _, List.perm_insertionSort _ _⟩

/-- C10 (confirmed): `get_stats` counts a song as untagged exactly when it
has zero links of any kind, the `untagged_only` filter of `query_songs`
admits a song exactly when it has no *manual* link, and on a state whose
one song carries only an auto-generated link the two notions disagree. -/
theorem c10_untagged_notions_disagree :
    (∀ db : Db, (get_stats db).untagged_songs
        = (db.songs.filter (fun s => linkCount db s.id == 0)).length)
    ∧ (∀ (db : Db) (m : SortMode) (s : SongRow),
        s ∈ query_songs db "" [] false true m ↔
          s ∈ db.songs ∧
            ∀ st ∈ db.song_tags, st.song_id = s.id → st.auto_generated = true)
    ∧ ((get_stats dbC10).untagged_songs = 0 ∧
        songC10 ∈ query_songs dbC10 "" [] false true SortMode.Title) := by
  refine ⟨untagged_stats_count, ?_, by decide, by decide⟩
  intro db m s
  rw [mem_query_songs, songPasses_untagged_only, noManualLinks_iff]

theorem map_kategorie_filterMap (l : List String) (p : String → Bool)
    (f : String → List TagEntry) :
    ((l.filterMap (fun c =>
        if p c then some (⟨c, f c⟩ : TagGroup) else none)).map TagGroup.kategorie)
      = l.filter p := by
  induction l with
  | nil => rfl
  | cons c rest ih =>
    rw [List.filterMap_cons, List.filter_cons]
    by_cases hp : p c = true
    · rw [if_pos hp, if_pos hp, List.map_cons, ih]
    · rw [if_neg hp, if_neg hp, ih]

theorem mem_get_all_tags (db : Db) (iterOrder : List String) (g : TagGroup)
    (hg : g ∈ get_all_tags db iterOrder) :
    g.tags = groupEntries db g.kategorie := by
  unfold get_all_tags at hg
  rcases List.mem_append.mp hg with h | h <;>
  · obtain ⟨c, -, hc⟩ := List.mem_filterMap.mp h
    split at hc
    · cases Option.some.inj hc
      rfl
    · cases hc

theorem mem_groupEntries (db : Db) (cat : String) (e : TagEntry) :
    e ∈ groupEntries db cat ↔
      ∃ t ∈ db.tags, t.kategorie = cat ∧ e = ⟨t.id, t.wert, tagUsageCount db t.id⟩ := by
  unfold groupEntries
  rw [List.mem_map]
  constructor
  · rintro ⟨t, htf, rfl⟩
    obtain ⟨hts, htc⟩ := List.mem_filter.mp htf
    refine ⟨t, ?_, by simpa using htc, rfl⟩
    exact (List.perm_insertionSort (tagRowLe db) db.tags).subset hts
  · rintro ⟨t, htdb, htc, rfl⟩
    refine ⟨t, List.mem_filter.mpr ⟨?_, by simpa using htc⟩, rfl⟩
    exact ((List.perm_insertionSort (tagRowLe db) db.tags).symm).subset htdb

theorem groupEntries_sorted (db : Db) (cat : String) :
    (groupEntries db cat).Pairwise (fun e1 e2 => e2.count < e1.count
      ∨ (e1.count = e2.count ∧ e1.wert.data ≤ e2.wert.data)) := by
  unfold groupEntries
  rw [List.pairwise_map]
  have hs : (sortedTagRows db).Pairwise (tagRowLe db) :=
    List.sorted_insertionSort (tagRowLe db) db.tags
  have hf := hs.filter (fun t => t.kategorie == cat)
  refine hf.imp_of_mem ?_
  intro a b ha hb hab
  have hac : a.kategorie = cat := by simpa using (List.mem_filter.mp ha).2
  have hbc : b.kategorie = cat := by simpa using (List.mem_filter.mp hb).2
  rcases hab with h | ⟨-, h⟩
  · rw [hac, hbc] at h
    exact absurd h (lt_irrefl _)
  · exact h

theorem get_or_create_tag_songs (db : Db) (k w : String) :
    ((get_or_create_tag db k w).1).songs = db.songs := by
  unfold get_or_create_tag
  split <;> rfl

theorem insertSongTag_songs (db : Db) (sid tid : Nat) (auto : Bool) :
    (insertSongTag db sid tid auto).songs = db.songs := by
  unfold insertSongTag
  split <;> rfl

theorem attach_fold_songs (sid : Nat) :
    ∀ (l : List (String × String)) (db : Db),
      (l.foldl (fun db kv =>
          insertSongTag (get_or_create_tag db kv.1 kv.2).1 sid
            (get_or_create_tag db kv.1 kv.2).2 true) db).songs = db.songs := by
  intro l
  induction l with
  | nil => intro db; rfl
  | cons kv rest ih =>
    intro db
    rw [List.foldl_cons, ih, insertSongTag_songs, get_or_create_tag_songs]

theorem attachAutoTags_songs (db : Db) (sid : Nat) (rel : String) :
    (attachAutoTags db sid rel).songs = db.songs :=
  attach_fold_songs sid (infer_tags rel) db

theorem insertIfNew_of_exists (audio : String → Option String) (db : Db)
    (p : RelPath) (h : songPathExists db (pathString p) = true) :
    insertIfNew audio db p = db := by
  simp [insertIfNew, h]

theorem insertIfNew_songs_mono (audio : String → Option String) (db : Db)
    (p : RelPath) (s : SongRow) (hs : s ∈ db.songs) :
    s ∈ (insertIfNew audio db p).songs := by
  cases h : songPathExists db (pathString p) with
  | true => simp [insertIfNew, h, hs]
  | false =>
    simp only [insertIfNew, h, Bool.false_eq_true, if_false]
    rw [attachAutoTags_songs]
    exact List.mem_append_left _ hs

theorem insertIfNew_pathExists (audio : String → Option String) (db : Db)
    (p : RelPath) :
    songPathExists (insertIfNew audio db p) (pathString p) = true := by
  cases h : songPathExists db (pathString p) with
  | true => simp [insertIfNew, h]
  | false =>
    simp only [insertIfNew, h, Bool.false_eq_true, if_false]
    unfold songPathExists
    rw [attachAutoTags_songs, List.any_append]
    apply Bool.or_eq_true_iff.mpr
    right
    simp [mkSongRow]

theorem scanInsertPhase_songs_mono (audio : String → Option String) :
    ∀ (entries : List RelPath) (db : Db) (s : SongRow), s ∈ db.songs →
      s ∈ (scanInsertPhase audio db entries).songs := by
  intro entries
  induction entries with
  | nil => intro db s hs; exact hs
  | cons p rest ih =>
    intro db s hs
    unfold scanInsertPhase at ih ⊢
    rw [List.foldl_cons]
    cases he : scannerEligible p with
    | false =>
      rw [if_neg (by simp)]
      exact ih db s hs
    | true =>
      rw [if_pos rfl]
      exact ih _ s (insertIfNew_songs_mono audio db p s hs)

theorem scanInsertPhase_pathExists_mono (audio : String → Option String)
    (entries : List RelPath) (db : Db) (rel : String)
    (h : songPathExists db rel = true) :
    songPathExists (scanInsertPhase audio db entries) rel = true := by
  unfold songPathExists at h ⊢
  rw [List.any_eq_true] at h ⊢
  obtain ⟨s, hs, he⟩ := h
  exact ⟨s, scanInsertPhase_songs_mono audio entries db s hs, he⟩

theorem scanInsertPhase_covers (audio : String → Option String) :
    ∀ (entries : List RelPath) (db : Db) (p : RelPath), p ∈ entries →
      scannerEligible p = true →
      songPathExists (scanInsertPhase audio db entries) (pathString p) = true := by
  intro entries
  induction entries with
  | nil => intro db p hp; exact absurd hp (List.not_mem_nil p)
  | cons q rest ih =>
    intro db p hp he
    unfold scanInsertPhase
    rw [List.foldl_cons]
    rcases List.mem_cons.mp hp with rfl | hp'
    · rw [he, if_pos rfl]
      exact scanInsertPhase_pathExists_mono audio rest _ _
        (insertIfNew_pathExists audio db p)
    · cases hq : scannerEligible q with
      | false =>
        rw [if_neg (by simp)]
        exact ih db p hp' he
      | true =>
        rw [if_pos rfl]
        exact ih _ p hp' he

theorem scanInsertPhase_id (audio : String → Option String) :
    ∀ (entries : List RelPath) (db : Db),
      (∀ p ∈ entries, scannerEligible p = true →
        songPathExists db (pathString p) = true) →
      scanInsertPhase audio db entries = db := by
  intro entries
  induction entries with
  | nil => intro db _; rfl
  | cons q rest ih =>
    intro db h
    unfold scanInsertPhase
    rw [List.foldl_cons]
    cases hq : scannerEligible q with
    | false =>
      rw [if_neg (by simp)]
      exact ih db (fun p hp => h p (List.mem_cons_of_mem q hp))
    | true =>
      rw [if_pos rfl]
      rw [insertIfNew_of_exists audio db q (h q (List.mem_cons_self q rest) hq)]
      exact ih db (fun p hp => h p (List.mem_cons_of_mem q hp))

theorem scanDeletePhase_id (db : Db) (found : List String)
    (h : ∀ s ∈ db.songs, found.contains s.dateipfad = true) :
    scanDeletePhase db found = db := by
  unfold scanDeletePhase
  have h0 : db.songs.filter (fun s => !(found.contains s.dateipfad)) = [] := by
    rw [List.filter_eq_nil_iff]
    intro s hs
    rw [h s hs]
    simp
  have h1 : db.songs.filter (fun s => found.contains s.dateipfad) = db.songs :=
    List.filter_eq_self.mpr h
  simp only [h0, h1, List.any_nil, Bool.not_false, List.filter_true]

theorem scanGcPhase_id (db : Db)
    (h : ∀ t ∈ db.tags, (db.song_tags.any (fun st => st.tag_id == t.id)) = true) :
    scanGcPhase db = db := by
  unfold scanGcPhase
  rw [List.filter_eq_self.mpr h]

theorem scan_directory_preserves (audio : String → Option String) (db : Db)
    (entries : List RelPath) (s : SongRow) (hs : s ∈ db.songs)
    (hfound : (foundPaths entries).contains s.dateipfad = true) :
    s ∈ (scan_directory audio db entries).songs := by
  unfold scan_directory scanGcPhase scanDeletePhase
  exact List.mem_filter.mpr
    ⟨scanInsertPhase_songs_mono audio entries db s hs, hfound⟩

theorem scan_directory_scan_again (audio : String → Option String) (db : Db)
    (entries : List RelPath) :
    scan_directory audio (scan_directory audio db entries) entries
      = scan_directory audio db entries := by
  set dbA := scan_directory audio db entries with hA
  have hA_songs : ∀ s ∈ dbA.songs, (foundPaths entries).contains s.dateipfad = true := by
    intro s hs
    rw [hA] at hs
    unfold scan_directory scanGcPhase scanDeletePhase at hs
    exact (List.mem_filter.mp hs).2
  have hA_exists : ∀ p ∈ entries, scannerEligible p = true →
      songPathExists dbA (pathString p) = true := by
    intro p hp he
    have h1 := scanInsertPhase_covers audio entries db p hp he
    unfold songPathExists at h1 ⊢
    rw [List.any_eq_true] at h1 ⊢
    obtain ⟨s, hs, hse⟩ := h1
    refine ⟨s, ?_, hse⟩
    rw [hA]
    unfold scan_directory scanGcPhase scanDeletePhase
    refine List.mem_filter.mpr ⟨hs, ?_⟩
    have hds : s.dateipfad = pathString p := by simpa using hse
    have hsp : s.dateipfad ∈ foundPaths entries := by
      unfold foundPaths
      rw [List.mem_map]
      exact ⟨p, List.mem_filter.mpr ⟨hp, he⟩, hds.symm⟩
    simpa using hsp
  have hA_tags : ∀ t ∈ dbA.tags,
      (dbA.song_tags.any (fun st => st.tag_id == t.id)) = true := by
    intro t ht
    rw [hA] at ht ⊢
    unfold scan_directory scanGcPhase at ht ⊢
    exact (List.mem_filter.mp ht).2
  conv_lhs => rw [scan_directory]
  rw [scanInsertPhase_id audio entries dbA hA_exists,
    scanDeletePhase_id dbA (foundPaths entries) hA_songs,
    scanGcPhase_id dbA hA_tags]

/-- C3 (confirmed): `scan_directory` is idempotent — running it twice with
no filesystem change in between yields the identical index — and a song
already indexed whose backing file is among the walked eligible entries is
kept with its exact row (user-edited metadata included). -/
theorem c3_scan_idempotent :
    (∀ (audio : String → Option String) (db : Db) (entries : List RelPath),
      scan_directory audio (scan_directory audio db entries) entries
        = scan_directory audio db entries)
    ∧ (∀ (audio : String → Option String) (db : Db) (entries : List RelPath)
        (s : SongRow), s ∈ db.songs →
        (foundPaths entries).contains s.dateipfad = true →
        s ∈ (scan_directory audio db entries).songs) :=
  ⟨scan_directory_scan_again, scan_directory_preserves⟩

theorem c3_scan_idempotent_witness :
    songC3 ∈ (scan_directory (fun _ => none) dbC3 entriesC3).songs :=
  c3_scan_idempotent.2 (fun _ => none) dbC3 entriesC3 songC3
    (by decide) (by decide)

/-- C9 (counterexample): the leftover (non-preferred) categories are
drained from a `HashMap` in its unspecified iteration order, not
alphabetically, and tags with zero links are still listed (with count 0)
by the `LEFT JOIN`.  With the drain order ["beta", "alpha"] — a
permutation of the leftover key set, so a possible `HashMap` order — the
output's category sequence is not alphabetical, and the orphan tag appears
with usage count 0 although it is not in use. -/
theorem c9_counterexample :
    (get_all_tags dbC9 ["beta", "alpha"]).map TagGroup.kategorie
        = ["beta", "alpha"]
    ∧ List.Perm ["beta", "alpha"] ["alpha", "beta"]
    ∧ (["beta", "alpha"] : List String) ≠ ["alpha", "beta"]
    ∧ (∃ g ∈ get_all_tags dbC9 ["beta", "alpha"], ∃ e ∈ g.tags, e.count = 0) := by
  refine ⟨by decide, List.Perm.swap _ _ _, by decide, by decide⟩

/-- C9 (amended): `get_all_tags` returns one group per category of the tag
table (tags with zero links included, annotated count 0), the preferred
categories first in the fixed sequence, then the remaining categories in
the hash-map drain order (not alphabetical); within each group the entries
are exactly the tags of that category with their usage counts, ordered by
descending usage count and then by value. -/
theorem c9_tag_group_structure (db : Db) (iterOrder : List String) :
    ((get_all_tags db iterOrder).map TagGroup.kategorie
      = category_order.filter (fun c => db.tags.any (fun t => t.kategorie == c))
        ++ iterOrder.filter (fun c =>
            db.tags.any (fun t => t.kategorie == c) && !(category_order.contains c)))
    ∧ (∀ g ∈ get_all_tags db iterOrder, ∀ e,
        e ∈ g.tags ↔ ∃ t ∈ db.tags, t.kategorie = g.kategorie
          ∧ e = ⟨t.id, t.wert, tagUsageCount db t.id⟩)
    ∧ (∀ g ∈ get_all_tags db iterOrder,
        g.tags.Pairwise (fun e1 e2 => e2.count < e1.count
          ∨ (e1.count = e2.count ∧ e1.wert.data ≤ e2.wert.data))) := by
  refine ⟨?_, ?_, ?_⟩
  · unfold get_all_tags
    rw [List.map_append, map_kategorie_filterMap, map_kategorie_filterMap]
  · intro g hg e
    rw [mem_get_all_tags db iterOrder g hg]
    exact mem_groupEntries db g.kategorie e
  · intro g hg
    rw [mem_get_all_tags db iterOrder g hg]
    exact groupEntries_sorted db g.kategorie

theorem c9_tag_group_structure_witness :
    ∃ g ∈ get_all_tags dbC9 ["beta", "alpha"], ∀ e,
      e ∈ g.tags ↔ ∃ t ∈ dbC9.tags, t.kategorie = g.kategorie
        ∧ e = ⟨t.id, t.wert, tagUsageCount dbC9 t.id⟩ := by
  refine ⟨⟨"beta", groupEntries dbC9 "beta"⟩, by decide, ?_⟩
  exact (c9_tag_group_structure dbC9 ["beta", "alpha"]).2.1
    ⟨"beta", groupEntries dbC9 "beta"⟩ (by decide)

theorem c10_untagged_notions_disagree_witness :
    songC10 ∈ query_songs dbC10 "" [] false true SortMode.Title :=
  (c10_untagged_notions_disagree.2.1 dbC10 SortMode.Title songC10).mpr
    ⟨by decide, by decide⟩

theorem songPasses_tags_only (db : Db) (sel : List Nat) (s : SongRow) :
    songPasses db "" sel false false s = tagFilterOk db sel s := by
  have hm : matchesSearch "" s = true := rfl
  unfold songPasses
  rw [hm]
  simp

theorem mem_selCats_of_sel (db : Db) (sel : List Nat) (t : TagRow)
    (ht : t ∈ db.tags) (hsel : t.id ∈ sel) : t.kategorie ∈ selCats db sel := by
  unfold selCats
  rw [List.mem_dedup, List.mem_map]
  exact ⟨t, List.mem_filter.mpr ⟨ht, by simpa using hsel⟩, rfl⟩

theorem songCats_subset_selCats (db : Db) (sel : List Nat) (s : SongRow) :
    ∀ c ∈ songCats db sel s, c ∈ selCats db sel := by
  intro c hc
  unfold songCats at hc
  rw [List.mem_dedup, List.mem_filterMap] at hc
  obtain ⟨st, hst, hcat⟩ := hc
  unfold selLinks at hst
  rw [List.mem_filter] at hst
  obtain ⟨hstdb, hcond⟩ := hst
  simp only [Bool.and_eq_true] at hcond
  have hsel : st.tag_id ∈ sel := by simpa using hcond.2
  unfold tagCategoryOf at hcat
  cases hfind : db.tags.find? (fun t => t.id == st.tag_id) with
  | none => rw [hfind] at hcat; simp at hcat
  | some u =>
    rw [hfind] at hcat
    simp only [Option.map_some'] at hcat
    have hu := List.mem_of_find?_eq_some hfind
    have huid : u.id = st.tag_id := by simpa using List.find?_some hfind
    have := mem_selCats_of_sel db sel u hu (huid ▸ hsel)
    exact (Option.some.inj hcat) ▸ this

theorem spec_to_subset (db : Db) (sel : List Nat) (s : SongRow)
    (hnodup : (db.tags.map TagRow.id).Nodup)
    (hspec : specTagPred db sel s) :
    ∀ c ∈ selCats db sel, c ∈ songCats db sel s := by
  intro c hc
  unfold selCats at hc
  rw [List.mem_dedup, List.mem_map] at hc
  obtain ⟨t, htf, hck⟩ := hc
  rw [List.mem_filter] at htf
  obtain ⟨htdb, htsel⟩ := htf
  have htsel' : t.id ∈ sel := by simpa using htsel
  obtain ⟨st, hstdb, hsid, hstsel, u, hu, huid, huk⟩ := hspec t htdb htsel'
  unfold songCats
  rw [List.mem_dedup, List.mem_filterMap]
  refine ⟨st, ?_, ?_⟩
  · unfold selLinks
    rw [List.mem_filter]
    exact ⟨hstdb, by simp [hsid, hstsel]⟩
  · unfold tagCategoryOf
    cases hfind : db.tags.find? (fun t' => t'.id == st.tag_id) with
    | none =>
      rw [List.find?_eq_none] at hfind
      exact absurd (by simpa using huid) (hfind u hu)
    | some w =>
      have hw := List.mem_of_find?_eq_some hfind
      have hwid : w.id = st.tag_id := by simpa using List.find?_some hfind
      have : w = u := List.inj_on_of_nodup_map hnodup hw hu (hwid.trans huid.symm)
      rw [Option.map_some']
      rw [this, huk, hck]

theorem subset_to_spec (db : Db) (sel : List Nat) (s : SongRow)
    (hsub : ∀ c ∈ selCats db sel, c ∈ songCats db sel s) :
    specTagPred db sel s := by
  intro t htdb htsel
  have hc := hsub t.kategorie (mem_selCats_of_sel db sel t htdb htsel)
  unfold songCats at hc
  rw [List.mem_dedup, List.mem_filterMap] at hc
  obtain ⟨st, hst, hcat⟩ := hc
  unfold selLinks at hst
  rw [List.mem_filter] at hst
  obtain ⟨hstdb, hcond⟩ := hst
  simp only [Bool.and_eq_true, beq_iff_eq] at hcond
  unfold tagCategoryOf at hcat
  cases hfind : db.tags.find? (fun t' => t'.id == st.tag_id) with
  | none => rw [hfind] at hcat; simp at hcat
  | some u =>
    rw [hfind, Option.map_some'] at hcat
    refine ⟨st, hstdb, hcond.1, by simpa using hcond.2,
      u, List.mem_of_find?_eq_some hfind, by simpa using List.find?_some hfind,
      Option.some.inj hcat⟩

theorem tagFilterOk_iff (db : Db) (sel : List Nat) (s : SongRow)
    (hids : ∀ tid ∈ sel, ∃ t ∈ db.tags, t.id = tid)
    (hnodup : (db.tags.map TagRow.id).Nodup) :
    tagFilterOk db sel s = true ↔ specTagPred db sel s := by
  unfold tagFilterOk
  by_cases hsel : sel = []
  · subst hsel
    simp only [List.isEmpty_nil, Bool.true_or, true_iff]
    intro t _ htsel
    simp at htsel
  · have hselE : sel.isEmpty = false := by
      cases sel with
      | nil => exact absurd rfl hsel
      | cons a l => rfl
    rw [hselE, Bool.false_or, Bool.and_eq_true, beq_iff_eq]
    constructor
    · rintro ⟨hne, hlen⟩
      apply subset_to_spec
      intro c hc
      have hsub : (songCats db sel s).toFinset ⊆ (selCats db sel).toFinset := by
        intro x hx
        rw [List.mem_toFinset] at hx ⊢
        exact songCats_subset_selCats db sel s x hx
      have hnd1 : (songCats db sel s).Nodup := List.nodup_dedup _
      have hnd2 : (selCats db sel).Nodup := List.nodup_dedup _
      have hcards : (selCats db sel).toFinset.card ≤ (songCats db sel s).toFinset.card := by
        rw [List.toFinset_card_of_nodup hnd1, List.toFinset_card_of_nodup hnd2]
        omega
      have heq := Finset.eq_of_subset_of_card_le hsub hcards
      have : c ∈ (selCats db sel).toFinset := List.mem_toFinset.mpr hc
      rw [← heq, List.mem_toFinset] at this
      exact this
    · intro hspec
      have hsub1 := spec_to_subset db sel s hnodup hspec
      have hsub2 := songCats_subset_selCats db sel s
      constructor
      · obtain ⟨tid, htid⟩ := List.exists_mem_of_ne_nil sel hsel
        obtain ⟨t, htdb, hteq⟩ := hids tid htid
        have hc := hsub1 t.kategorie (mem_selCats_of_sel db sel t htdb (hteq ▸ htid))
        unfold songCats at hc
        rw [List.mem_dedup, List.mem_filterMap] at hc
        obtain ⟨st, hst, -⟩ := hc
        cases hl : (selLinks db sel s).isEmpty with
        | false => rfl
        | true =>
          rw [List.isEmpty_iff] at hl
          rw [hl] at hst
          exact absurd hst (List.not_mem_nil st)
      · have hfeq : (songCats db sel s).toFinset = (selCats db sel).toFinset := by
          apply Finset.Subset.antisymm
          · intro x hx
            rw [List.mem_toFinset] at hx ⊢
            exact hsub2 x hx
          · intro x hx
            rw [List.mem_toFinset] at hx ⊢
            exact hsub1 x hx
        have hnd1 : (songCats db sel s).Nodup := List.nodup_dedup _
        have hnd2 : (selCats db sel).Nodup := List.nodup_dedup _
        have := congrArg Finset.card hfeq
        rwa [List.toFinset_card_of_nodup hnd1,
          List.toFinset_card_of_nodup hnd2] at this

/-- C4 (confirmed): for every state whose selected tag ids are ids of
existing tags (and tag ids unique, as the primary key guarantees), a song
is returned by `query_songs` exactly when, for every category containing a
selected tag, the song links to a selected tag of that category; an empty
selection matches every song.  The concrete conjuncts are the claim's two
examples: {instrument=Guitar, stil=Jazz} returns only the song with both
links; {instrument=Guitar, instrument=Ukulele} returns the songs with
either. -/
theorem c4_tag_filter_semantics :
    (∀ (db : Db) (sel : List Nat) (s : SongRow),
      (∀ tid ∈ sel, ∃ t ∈ db.tags, t.id = tid) →
      (db.tags.map TagRow.id).Nodup →
      (s ∈ query_songs db "" sel false false SortMode.Title ↔
        s ∈ db.songs ∧ specTagPred db sel s))
    ∧ query_songs dbC4 "" [10, 20] false false SortMode.Title = [songC4both]
    ∧ query_songs dbC4 "" [10, 11] false false SortMode.Title
        = [songC4g, songC4u, songC4both] := by
  refine ⟨?_, by decide, by decide⟩
  intro db sel s hids hnodup
  rw [mem_query_songs, songPasses_tags_only, tagFilterOk_iff db sel s hids hnodup]

theorem c4_tag_filter_semantics_witness :
    songC4both ∈ dbC4.songs ∧ specTagPred dbC4 [10, 20] songC4both :=
  (c4_tag_filter_semantics.1 dbC4 [10, 20] songC4both
    (by decide) (by decide)).mp (by decide)

theorem dedupKeep_congr (s₁ s₂ : List (String × String))
    (h : ∀ x, x ∈ s₁ ↔ x ∈ s₂) :
    ∀ l, dedupKeep s₁ l = dedupKeep s₂ l := by
  intro l
  induction l generalizing s₁ s₂ with
  | nil => rfl
  | cons p rest ih =>
    unfold dedupKeep
    by_cases hp : p ∈ s₁
    · rw [if_pos hp, if_pos ((h p).mp hp)]
      exact ih s₁ s₂ h
    · rw [if_neg hp, if_neg (fun hc => hp ((h p).mpr hc))]
      refine congrArg (p :: ·) (ih _ _ ?_)
      intro x
      simp only [List.mem_cons]
      exact or_congr Iff.rfl (h x)

theorem dedupKeep_cons (seen : List (String × String)) (p : String × String)
    (rest : List (String × String)) :
    dedupKeep seen (p :: rest)
      = if p ∈ seen then dedupKeep seen rest
        else p :: dedupKeep (p :: seen) rest := rfl

theorem infer_fold_eq (path : String) :
    ∀ (rules : List AutoTag) (acc : List (String × String)),
      rules.foldl
        (fun acc t =>
          if strContains path t.pattern && !(acc.contains (t.kategorie, t.wert)) then
            acc ++ [(t.kategorie, t.wert)]
          else acc) acc
      = acc ++ dedupKeep acc
          ((rules.filter (fun t => strContains path t.pattern)).map pairOf) := by
  intro rules
  induction rules with
  | nil => intro acc; simp [dedupKeep]
  | cons t ts ih =>
    intro acc
    rw [List.foldl_cons, List.filter_cons]
    cases hm : strContains path t.pattern with
    | false =>
      simp only [Bool.false_and, Bool.false_eq_true, if_false, hm]
      exact ih acc
    | true =>
      simp only [Bool.true_and, if_true, List.map_cons]
      cases hc : acc.contains (t.kategorie, t.wert) with
      | true =>
        have hmem : pairOf t ∈ acc := by simpa [pairOf] using hc
        simp only [Bool.not_true, Bool.and_false, Bool.false_eq_true, if_false]
        rw [ih acc, dedupKeep_cons, if_pos hmem]
      | false =>
        have hmem : ¬ pairOf t ∈ acc := by simpa [pairOf] using hc
        simp only [Bool.not_false, Bool.and_true, if_true]
        rw [ih (acc ++ [(t.kategorie, t.wert)]), dedupKeep_cons, if_neg hmem]
        rw [List.append_assoc]
        refine congrArg (acc ++ ·) ?_
        show (t.kategorie, t.wert) :: dedupKeep (acc ++ [(t.kategorie, t.wert)]) _
          = pairOf t :: dedupKeep (pairOf t :: acc) _
        refine congrArg (pairOf t :: ·) ?_
        refine dedupKeep_congr _ _ ?_ _
        intro x
        simp [pairOf, List.mem_append, List.mem_cons, or_comm]

theorem listIsPre_iff (pat : List Char) :
    ∀ s, listIsPre pat s = true ↔ ∃ t, s = pat ++ t := by
  induction pat with
  | nil => intro s; simp [listIsPre]
  | cons a as ih =>
    intro s
    cases s with
    | nil => simp [listIsPre]
    | cons b bs =>
      simp only [listIsPre, Bool.and_eq_true, beq_iff_eq]
      rw [ih bs]
      constructor
      · rintro ⟨rfl, t, rfl⟩
        exact ⟨t, rfl⟩
      · rintro ⟨t, h⟩
        injection h with h1 h2
        exact ⟨h1.symm, t, h2⟩

theorem findSubIdx_some (pat s : List Char) (i : Nat)
    (h : findSubIdx pat s = some i) :
    listIsPre pat (s.drop i) = true ∧
      ∀ j, j < i → listIsPre pat (s.drop j) = false := by
  induction s generalizing i with
  | nil =>
    unfold findSubIdx at h
    by_cases hp : pat.isEmpty = true
    · rw [if_pos hp] at h
      obtain rfl : i = 0 := (Option.some.inj h).symm
      constructor
      · cases pat with
        | nil => rfl
        | cons a as => simp [List.isEmpty] at hp
      · intro j hj
        omega
    · rw [if_neg hp] at h
      exact absurd h (by simp)
  | cons c rest ih =>
    unfold findSubIdx at h
    by_cases hp : listIsPre pat (c :: rest) = true
    · rw [if_pos hp] at h
      obtain rfl : i = 0 := (Option.some.inj h).symm
      exact ⟨hp, fun j hj => absurd hj (by omega)⟩
    · rw [if_neg hp] at h
      cases hf : findSubIdx pat rest with
      | none => rw [hf] at h; simp at h
      | some k =>
        rw [hf] at h
        simp only [Option.map_some'] at h
        obtain rfl : i = k + 1 := (Option.some.inj h).symm
        obtain ⟨hpre, hmin⟩ := ih k hf
        refine ⟨hpre, ?_⟩
        intro j hj
        cases j with
        | zero =>
          rw [List.drop_zero]
          exact Bool.not_eq_true _ ▸ (by simpa using hp)
        | succ j' =>
          show listIsPre pat (rest.drop j') = false
          exact hmin j' (by omega)

theorem findSubIdx_none (pat s : List Char) (h : findSubIdx pat s = none) :
    ∀ j, listIsPre pat (s.drop j) = false := by
  induction s with
  | nil =>
    intro j
    unfold findSubIdx at h
    by_cases hp : pat.isEmpty = true
    · rw [if_pos hp] at h; exact absurd h (by simp)
    · rw [List.drop_nil]
      cases pat with
      | nil => simp [List.isEmpty] at hp
      | cons a as => rfl
  | cons c rest ih =>
    intro j
    unfold findSubIdx at h
    by_cases hp : listIsPre pat (c :: rest) = true
    · rw [if_pos hp] at h; exact absurd h (by simp)
    · rw [if_neg hp] at h
      cases hf : findSubIdx pat rest with
      | some k => rw [hf] at h; simp at h
      | none =>
        cases j with
        | zero =>
          rw [List.drop_zero]
          exact Bool.not_eq_true _ ▸ (by simpa using hp)
        | succ j' =>
          show listIsPre pat (rest.drop j') = false
          exact ih hf j'

theorem head?_dropWhile_ws (l : List Char) (c : Char)
    (h : (l.dropWhile Char.isWhitespace).head? = some c) :
    c.isWhitespace = false := by
  induction l with
  | nil => simp [List.dropWhile] at h
  | cons a rest ih =>
    rw [List.dropWhile_cons] at h
    by_cases ha : a.isWhitespace = true
    · rw [if_pos ha] at h
      exact ih h
    · rw [if_neg ha] at h
      obtain rfl : a = c := Option.some.inj h
      exact Bool.not_eq_true _ ▸ (by simpa using ha)

theorem isEmpty_false_of_ne_nil {α : Type} (l : List α) (h : l ≠ []) :
    l.isEmpty = false := by
  cases l with
  | nil => exact absurd rfl h
  | cons a t => rfl

theorem getLast?_mem_of_eq_some {α : Type} (l : List α) (c : α)
    (h : l.getLast? = some c) : c ∈ l := by
  cases l with
  | nil => simp at h
  | cons a t =>
    rw [List.getLast?_eq_getLast (a :: t) (by simp)] at h
    exact (Option.some.inj h) ▸ List.getLast_mem (by simp)

theorem trimChars_getLast (l : List Char) (c : Char)
    (h : (trimChars l).getLast? = some c) : c.isWhitespace = false := by
  unfold trimChars at h
  rw [List.getLast?_reverse] at h
  exact head?_dropWhile_ws _ _ h

theorem trimChars_head (l : List Char) (c : Char)
    (h : (trimChars l).head? = some c) : c.isWhitespace = false := by
  unfold trimChars at h
  rw [List.head?_reverse] at h
  set A := (l.dropWhile Char.isWhitespace).reverse with hA
  have hBne : A.dropWhile Char.isWhitespace ≠ [] := by
    intro hnil
    rw [hnil] at h
    simp at h
  obtain ⟨t, hts⟩ := List.dropWhile_suffix (l := A) Char.isWhitespace
  have hgl : (A.dropWhile Char.isWhitespace).getLast? = A.getLast? := by
    conv_rhs => rw [← hts]
    rw [List.getLast?_append]
    cases hB : (A.dropWhile Char.isWhitespace).getLast? with
    | none =>
      rw [List.getLast?_eq_none_iff] at hB
      exact absurd hB hBne
    | some x => simp [Option.or]
  rw [hgl, hA, List.getLast?_reverse] at h
  exact head?_dropWhile_ws _ _ h

theorem trimChars_eq_nil_iff (l : List Char) :
    trimChars l = [] ↔ ∀ c ∈ l, c.isWhitespace = true := by
  unfold trimChars
  rw [List.reverse_eq_nil_iff, List.dropWhile_eq_nil_iff]
  constructor
  · intro h c hc
    rw [← List.takeWhile_append_dropWhile Char.isWhitespace l] at hc
    rcases List.mem_append.mp hc with hc1 | hc2
    · exact List.mem_takeWhile_imp hc1
    · exact h c (List.mem_reverse.mpr hc2)
  · intro h c hc
    exact h c ((List.dropWhile_suffix Char.isWhitespace).subset (List.mem_reverse.mp hc))

theorem trimChars_ne_nil (l : List Char) (c : Char) (hc : c ∈ l)
    (hw : c.isWhitespace = false) : trimChars l ≠ [] := by
  intro h
  rw [trimChars_eq_nil_iff] at h
  rw [h c hc] at hw
  cases hw

theorem splitAtSep_eq_specSplit (sep name : List Char)
    (hsh : sep.head? = some ' ')
    (hsl : sep.getLast? = some ' ')
    (hnh : ∀ c, name.head? = some c → c.isWhitespace = false)
    (hnl : ∀ c, name.getLast? = some c → c.isWhitespace = false) :
    splitAtSep sep name = specSplit sep name := by
  have hsep_ne : sep ≠ [] := by
    intro h
    rw [h] at hsh
    simp at hsh
  unfold splitAtSep specSplit
  cases hf : findSubIdx sep name with
  | none =>
    have hall := findSubIdx_none sep name hf
    have hnone : (List.range (name.length + 1)).find? (goodSplitAt sep name)
        = none := by
      rw [List.find?_eq_none]
      intro i _ hgood
      unfold goodSplitAt at hgood
      simp only [Bool.and_eq_true] at hgood
      rw [hall i] at hgood
      exact absurd hgood.1.1 (by simp)
    rw [hnone]
    rfl
  | some i =>
    obtain ⟨hpre, hmin⟩ := findSubIdx_some sep name i hf
    obtain ⟨rest, hrest⟩ := ((listIsPre_iff sep _).mp hpre)
    have hname_ne : name ≠ [] := by
      intro h
      subst h
      rw [List.drop_nil] at hrest
      rcases List.append_eq_nil.mp hrest.symm with ⟨h1, -⟩
      exact hsep_ne h1
    have hi0 : i ≠ 0 := by
      intro h0
      subst h0
      rw [List.drop_zero] at hrest
      have hh : name.head? = some ' ' := by
        rw [hrest, List.head?_append, hsh]
        rfl
      have := hnh ' ' hh
      simp at this
    have hdrop : name.drop (i + sep.length) = rest := by
      rw [← List.drop_drop, hrest, List.drop_left]
    obtain ⟨c, hc⟩ : ∃ c, name.head? = some c := by
      cases name with
      | nil => exact absurd rfl hname_ne
      | cons a as => exact ⟨a, rfl⟩
    have hcw := hnh c hc
    have hcmem : c ∈ name.take i := by
      cases name with
      | nil => exact absurd rfl hname_ne
      | cons a as =>
        obtain rfl : a = c := Option.some.inj hc
        cases i with
        | zero => exact absurd rfl hi0
        | succ i' =>
          rw [List.take_succ_cons]
          exact List.mem_cons_self a _
    have hleft : trimChars (name.take i) ≠ [] := trimChars_ne_nil _ c hcmem hcw
    have hrest_ne : rest ≠ [] := by
      intro h0
      subst h0
      have hsplit : name = name.take i ++ sep := by
        conv_lhs => rw [← List.take_append_drop i name]
        rw [hrest, List.append_nil]
      have hlast : name.getLast? = some ' ' := by
        rw [hsplit, List.getLast?_append, hsl]
        rfl
      have := hnl ' ' hlast
      simp at this
    obtain ⟨d, hd⟩ : ∃ d, rest.getLast? = some d := by
      cases hr : rest.getLast? with
      | none => exact absurd (List.getLast?_eq_none_iff.mp hr) hrest_ne
      | some x => exact ⟨x, rfl⟩
    have hdmem : d ∈ rest := getLast?_mem_of_eq_some rest d hd
    have hdw : d.isWhitespace = false := by
      have hlast : name.getLast? = some d := by
        conv_lhs => rw [← List.take_append_drop i name]
        rw [hrest, List.getLast?_append, List.getLast?_append, hd]
        rfl
      exact hnl d hlast
    have hright : trimChars rest ≠ [] := trimChars_ne_nil _ d hdmem hdw
    have hgood : goodSplitAt sep name i = true := by
      unfold goodSplitAt
      rw [hpre, hdrop]
      rw [isEmpty_false_of_ne_nil _ hleft, isEmpty_false_of_ne_nil _ hright]
      rfl
    have hlt : i < name.length := by
      by_contra hge
      push_neg at hge
      rw [List.drop_eq_nil_of_le hge] at hrest
      rcases List.append_eq_nil.mp hrest.symm with ⟨h1, -⟩
      exact hsep_ne h1
    have hfind : (List.range (name.length + 1)).find? (goodSplitAt sep name)
        = some i := by
      rw [List.find?_eq_some]
      refine ⟨hgood, List.range i,
        (List.range (name.length - i)).map (fun x => i + 1 + x), ?_, ?_⟩
      · have hsum : name.length + 1 = i + (1 + (name.length - i)) := by omega
        have hr1 : List.range 1 = [0] := rfl
        rw [hsum, List.range_add, List.range_add, List.map_append]
        simp only [hr1, List.map_cons, List.map_nil, Nat.add_zero,
          List.map_map, List.singleton_append, List.cons_append, List.nil_append]
        refine congrArg (List.range i ++ i :: ·) (List.map_congr_left ?_)
        intro x _
        simp only [Function.comp]
        omega
      · intro a ha
        have halt : a < i := List.mem_range.mp ha
        unfold goodSplitAt
        rw [hmin a halt]
        rfl
    rw [hfind]
    simp only [Option.map_some']
    show (if ((trimChars (List.take i name)).isEmpty ||
        (trimChars (List.drop (i + sep.length) name)).isEmpty) = true then none
      else some (trimChars (List.drop (i + sep.length) name),
        trimChars (List.take i name)))
      = some (trimChars (List.drop (i + sep.length) name),
        trimChars (List.take i name))
    rw [isEmpty_false_of_ne_nil _ hleft,
      isEmpty_false_of_ne_nil _ (by rw [hdrop]; exact hright)]
    rfl

theorem parse_filename_eq_spec (f : String) :
    parse_filename f = specParseFilename f := by
  unfold parse_filename specParseFilename
  have hname : ∀ c, ((cleanName f.toList).head? = some c → c.isWhitespace = false)
      ∧ ((cleanName f.toList).getLast? = some c → c.isWhitespace = false) := by
    intro c
    constructor
    · intro h
      exact trimChars_head _ c h
    · intro h
      exact trimChars_getLast _ c h
  show (match splitAtSep sepHyphen (cleanName f.toList) with
      | some (t, a) => (t.asString, some a.asString)
      | none =>
        match splitAtSep sepEndash (cleanName f.toList) with
        | some (t, a) => (t.asString, some a.asString)
        | none => ((cleanName f.toList).asString, none))
    = (match specSplit sepHyphen (cleanName f.toList) with
      | some (t, a) => (t.asString, some a.asString)
      | none =>
        match specSplit sepEndash (cleanName f.toList) with
        | some (t, a) => (t.asString, some a.asString)
        | none => ((cleanName f.toList).asString, none))
  rw [splitAtSep_eq_specSplit sepHyphen (cleanName f.toList) rfl rfl
      (fun c => (hname c).1) (fun c => (hname c).2),
    splitAtSep_eq_specSplit sepEndash (cleanName f.toList) rfl rfl
      (fun c => (hname c).1) (fun c => (hname c).2)]

/-- C5 (counterexample): the extension strip of `parse_filename` is by the
exact-case suffixes `".pdf"` and `".PDF"` only, not case-insensitive as the
claim states: on `"Song.Pdf"` the code keeps the suffix and returns title
`"Song.Pdf"`, while a case-insensitive strip (the claim's words) yields
`"Song"`. -/
theorem c5_counterexample :
    parse_filename "Song.Pdf" = ("Song.Pdf", none) ∧
      (stripExtCaseInsensitive "Song.Pdf".toList).asString = "Song" := by
  constructor
  · decide
  · decide

/-- C5 (amended): `parse_filename` first strips the exact suffixes `".pdf"`
(repeatedly), then `".PDF"` (repeatedly), then trailing `" Kopie"` markers,
and trims whitespace; it then splits at the first `" - "` occurrence whose
two sides are non-empty after trimming (left artist, right title), else at
the first `" – "` occurrence under the same rule, else returns the whole
cleaned string as title with no artist; the claim's two examples hold. -/
theorem c5_parse_filename_spec :
    (∀ f : String, parse_filename f = specParseFilename f)
    ∧ parse_filename "Beatles - Let It Be.pdf" = ("Let It Be", some "Beatles")
    ∧ parse_filename "Amazing Grace.pdf" = ("Amazing Grace", none) :=
  ⟨parse_filename_eq_spec, by decide, by decide⟩

/-- C6 (confirmed): `infer_tags` emits, in table order, the category/value
pair of each matching rule, each distinct pair at most once with the first
match winning, plus the acoustic-guitar fallback when no instrument tag was
emitted — i.e. exactly the spec's description — and on a path containing
"E-Gitarre" twice the pair (instrument, E-Gitarre) is emitted exactly
once. -/
theorem c6_infer_tags_spec :
    (∀ path : String, infer_tags path = specInferTags path)
    ∧ infer_tags egPath = [("instrument", "E-Gitarre")]
    ∧ (infer_tags egPath).count ("instrument", "E-Gitarre") = 1 := by
  refine ⟨?_, by decide, by decide⟩
  intro path
  unfold infer_tags specInferTags dedupFirst
  rw [infer_fold_eq path AUTO_TAGS []]
  rw [List.nil_append]

/-! ### C1: tag-table and lookup lemmas -/

theorem dedupKeep_nodup (l : List (String × String)) :
    ∀ seen, (dedupKeep seen l).Nodup ∧ ∀ x ∈ dedupKeep seen l, x ∉ seen := by
  induction l with
  | nil => intro seen; exact ⟨List.nodup_nil, by intro x hx; cases hx⟩
  | cons p rest ih =>
    intro seen
    rw [dedupKeep_cons]
    by_cases hp : p ∈ seen
    · rw [if_pos hp]
      exact ih seen
    · rw [if_neg hp]
      obtain ⟨hnd, hout⟩ := ih (p :: seen)
      constructor
      · refine List.nodup_cons.mpr ⟨?_, hnd⟩
        intro hmem
        exact hout p hmem (List.mem_cons_self p seen)
      · intro x hx hxs
        rcases List.mem_cons.mp hx with rfl | hx'
        · exact hp hxs
        · exact hout x hx' (List.mem_cons_of_mem p hxs)

theorem infer_tags_nodup (path : String) : (infer_tags path).Nodup := by
  unfold infer_tags
  rw [infer_fold_eq path AUTO_TAGS [], List.nil_append]
  set base := dedupKeep []
    ((AUTO_TAGS.filter (fun t => strContains path t.pattern)).map pairOf) with hb
  have hbase : base.Nodup := (dedupKeep_nodup _ []).1
  by_cases hc : (strContains path "00 gitarre"
      && !(base.any (fun kv => kv.1 == "instrument"))) = true
  · rw [if_pos hc]
    simp only [Bool.and_eq_true, Bool.not_eq_true'] at hc
    rw [List.any_eq_false] at hc
    have hnotin : ("instrument", "Akustik-Gitarre") ∉ base := by
      intro hmem
      exact absurd (by simp : (("instrument", "Akustik-Gitarre").1 == "instrument") = true)
        (by simpa using hc.2 _ hmem)
    simp [List.nodup_append, hbase, hnotin]
  · rw [if_neg hc]
    exact hbase

theorem find?_pair_of_mem (tags : List TagRow) (kv : String × String)
    (h : kv ∈ tags.map pairTag) :
    ∃ t, tags.find? (fun t => t.kategorie == kv.1 && t.wert == kv.2) = some t
      ∧ pairTag t = kv := by
  cases hf : tags.find? (fun t => t.kategorie == kv.1 && t.wert == kv.2) with
  | none =>
    rw [List.find?_eq_none] at hf
    obtain ⟨t, ht, hpt⟩ := List.mem_map.mp h
    have h1 : t.kategorie = kv.1 := by rw [← hpt]; rfl
    have h2 : t.wert = kv.2 := by rw [← hpt]; rfl
    exact absurd (by simp [h1, h2]) (hf t ht)
  | some t =>
    have := List.find?_some hf
    simp only [Bool.and_eq_true, beq_iff_eq] at this
    exact ⟨t, rfl, by simp [pairTag, this.1, this.2]⟩

theorem tagIdLookup_mem (tags : List TagRow) (kv : String × String)
    (h : kv ∈ tags.map pairTag) :
    ∃ t ∈ tags, pairTag t = kv ∧ tagIdLookup tags kv = t.id := by
  obtain ⟨t, hf, hp⟩ := find?_pair_of_mem tags kv h
  refine ⟨t, List.mem_of_find?_eq_some hf, hp, ?_⟩
  unfold tagIdLookup
  rw [hf]
  rfl

theorem find?_id_unique (tags : List TagRow)
    (hids : (tags.map TagRow.id).Nodup) (t : TagRow) (ht : t ∈ tags) :
    tags.find? (fun u => u.id == t.id) = some t := by
  induction tags with
  | nil => cases ht
  | cons u rest ih =>
    rw [List.map_cons, List.nodup_cons] at hids
    by_cases hu : (u.id == t.id) = true
    · rw [@List.find?_cons_of_pos _ (fun v => v.id == t.id) u rest hu]
      rcases List.mem_cons.mp ht with rfl | ht'
      · rfl
      · exact absurd (List.mem_map.mpr ⟨t, ht', (by simpa using hu : u.id = t.id).symm⟩) hids.1
    · rw [@List.find?_cons_of_neg _ (fun v => v.id == t.id) u rest hu]
      rcases List.mem_cons.mp ht with rfl | ht'
      · exact absurd (by simp) hu
      · exact ih hids.2 ht'

theorem tagIdLookup_inj (tags : List TagRow)
    (hids : (tags.map TagRow.id).Nodup) (kv kv' : String × String)
    (h : kv ∈ tags.map pairTag) (h' : kv' ∈ tags.map pairTag) (hne : kv ≠ kv') :
    tagIdLookup tags kv ≠ tagIdLookup tags kv' := by
  obtain ⟨t, ht, hpt, hlt⟩ := tagIdLookup_mem tags kv h
  obtain ⟨t', ht', hpt', hlt'⟩ := tagIdLookup_mem tags kv' h'
  rw [hlt, hlt']
  intro hid
  exact hne (hpt ▸ hpt' ▸ congrArg pairTag
    (List.inj_on_of_nodup_map hids ht ht' hid))

theorem find?_pair_append (tags tl : List TagRow) (kv : String × String)
    (h : kv ∈ tags.map pairTag) :
    (tags ++ tl).find? (fun t => t.kategorie == kv.1 && t.wert == kv.2)
      = tags.find? (fun t => t.kategorie == kv.1 && t.wert == kv.2) := by
  obtain ⟨t, hf, -⟩ := find?_pair_of_mem tags kv h
  rw [List.find?_append, hf]
  rfl

theorem tagIdLookup_append (tags tl : List TagRow) (kv : String × String)
    (h : kv ∈ tags.map pairTag) :
    tagIdLookup (tags ++ tl) kv = tagIdLookup tags kv := by
  unfold tagIdLookup
  rw [find?_pair_append tags tl kv h]

theorem find?_id_append_high (base tl : List TagRow) (bn i : Nat)
    (hlow : i < bn) (hhigh : ∀ t ∈ tl, bn ≤ t.id) :
    (base ++ tl).find? (fun u => u.id == i) = base.find? (fun u => u.id == i) := by
  rw [List.find?_append]
  have : tl.find? (fun u => u.id == i) = none := by
    rw [List.find?_eq_none]
    intro t ht
    have := hhigh t ht
    simp only [beq_iff_eq]
    omega
  rw [this]
  cases base.find? (fun u => u.id == i) <;> rfl

theorem find?_id_filter_of_pass (l : List TagRow) (p : TagRow → Bool)
    (i : Nat) (t : TagRow) (hids : (l.map TagRow.id).Nodup)
    (hf : l.find? (fun u => u.id == i) = some t) (hp : p t = true) :
    (l.filter p).find? (fun u => u.id == i) = some t := by
  have ht : t ∈ l := List.mem_of_find?_eq_some hf
  have hti : t.id = i := by simpa using List.find?_some hf
  have hmem : t ∈ l.filter p := List.mem_filter.mpr ⟨ht, hp⟩
  have hsub : (l.filter p).map TagRow.id |>.Sublist (l.map TagRow.id) :=
    (List.filter_sublist l).map TagRow.id
  have := find?_id_unique (l.filter p) (hids.sublist hsub) t hmem
  rwa [hti] at this

theorem find?_id_filter_of_none (l : List TagRow) (p : TagRow → Bool)
    (i : Nat) (hf : l.find? (fun u => u.id == i) = none) :
    (l.filter p).find? (fun u => u.id == i) = none := by
  rw [List.find?_eq_none] at hf ⊢
  intro t ht
  exact hf t (List.mem_filter.mp ht).1

theorem get_or_create_tag_eq_some (db : Db) (k w : String) (t : TagRow)
    (hf : db.tags.find? (fun t => t.kategorie == k && t.wert == w) = some t) :
    get_or_create_tag db k w = (db, t.id) := by
  unfold get_or_create_tag
  rw [hf]

theorem get_or_create_tag_eq_none (db : Db) (k w : String)
    (hf : db.tags.find? (fun t => t.kategorie == k && t.wert == w) = none) :
    get_or_create_tag db k w
      = Prod.mk
          { db with
            tags := db.tags ++ [⟨db.next_tag_id, k, w⟩],
            next_tag_id := db.next_tag_id + 1 }
          db.next_tag_id := by
  unfold get_or_create_tag
  rw [hf]

theorem get_or_create_spec (base : List TagRow) (bn : Nat) (db : Db)
    (k w : String) (hwf : TagsWf base bn db.tags db.next_tag_id) :
    (get_or_create_tag db k w).1.songs = db.songs ∧
    (get_or_create_tag db k w).1.song_tags = db.song_tags ∧
    (get_or_create_tag db k w).1.next_song_id = db.next_song_id ∧
    TagsWf base bn (get_or_create_tag db k w).1.tags
      (get_or_create_tag db k w).1.next_tag_id ∧
    (∃ tl2, (get_or_create_tag db k w).1.tags = db.tags ++ tl2 ∧
      ∀ t ∈ tl2, db.next_tag_id ≤ t.id) ∧
    db.next_tag_id ≤ (get_or_create_tag db k w).1.next_tag_id ∧
    (k, w) ∈ (get_or_create_tag db k w).1.tags.map pairTag ∧
    (∀ kv ∈ (get_or_create_tag db k w).1.tags.map pairTag,
      kv ∈ db.tags.map pairTag ∨ kv = (k, w)) ∧
    (get_or_create_tag db k w).2
      = tagIdLookup (get_or_create_tag db k w).1.tags (k, w) := by
  obtain ⟨⟨tl0, htl0, htl0id⟩, hlt, hids, hpairs, hbn⟩ := hwf
  cases hf : db.tags.find? (fun t => t.kategorie == k && t.wert == w) with
  | some t =>
    rw [get_or_create_tag_eq_some db k w t hf]
    have hpt : pairTag t = (k, w) := by
      have := List.find?_some hf
      simp only [Bool.and_eq_true, beq_iff_eq] at this
      simp [pairTag, this.1, this.2]
    refine ⟨rfl, rfl, rfl, ⟨⟨tl0, htl0, htl0id⟩, hlt, hids, hpairs, hbn⟩,
      ⟨[], by simp, by simp⟩, le_refl _, ?_, fun kv hkv => Or.inl hkv, ?_⟩
    · exact List.mem_map.mpr ⟨t, List.mem_of_find?_eq_some hf, hpt⟩
    · unfold tagIdLookup
      have hsame : db.tags.find? (fun u => u.kategorie == (k, w).1
          && u.wert == (k, w).2) = some t := hf
      rw [hsame]
      rfl
  | none =>
    rw [get_or_create_tag_eq_none db k w hf]
    have hnotin : (k, w) ∉ db.tags.map pairTag := by
      intro hmem
      rw [List.find?_eq_none] at hf
      obtain ⟨t, ht, hpt⟩ := List.mem_map.mp hmem
      have h1 : t.kategorie = k := congrArg Prod.fst hpt
      have h2 : t.wert = w := congrArg Prod.snd hpt
      exact absurd (by simp [h1, h2]) (hf t ht)
    have hidsnew : ((db.tags ++ [(⟨db.next_tag_id, k, w⟩ : TagRow)]).map TagRow.id).Nodup := by
      rw [List.map_append]
      simp only [List.map_cons, List.map_nil]
      rw [List.nodup_append]
      refine ⟨hids, List.nodup_singleton _, ?_⟩
      intro i hi
      simp only [List.mem_singleton]
      obtain ⟨t, ht, rfl⟩ := List.mem_map.mp hi
      intro heq
      exact absurd (heq ▸ hlt t ht) (lt_irrefl _)
    have hpairsnew : ((db.tags ++ [(⟨db.next_tag_id, k, w⟩ : TagRow)]).map pairTag).Nodup := by
      rw [List.map_append]
      simp only [List.map_cons, List.map_nil]
      rw [List.nodup_append]
      refine ⟨hpairs, List.nodup_singleton _, ?_⟩
      intro kv hkv
      simp only [List.mem_singleton]
      intro heq
      apply hnotin
      have hpr : pairTag (⟨db.next_tag_id, k, w⟩ : TagRow) = (k, w) := rfl
      rw [heq, hpr] at hkv
      exact hkv
    refine ⟨rfl, rfl, rfl,
      ⟨⟨tl0 ++ [⟨db.next_tag_id, k, w⟩], ?_, ?_⟩,
        ?_, hidsnew, hpairsnew, by show bn ≤ db.next_tag_id + 1; omega⟩,
      ⟨[⟨db.next_tag_id, k, w⟩], rfl, by simp⟩,
      by show db.next_tag_id ≤ db.next_tag_id + 1; omega, ?_, ?_, ?_⟩
    · show db.tags ++ [(⟨db.next_tag_id, k, w⟩ : TagRow)]
        = base ++ (tl0 ++ [⟨db.next_tag_id, k, w⟩])
      rw [htl0, List.append_assoc]
    · intro t ht
      rcases List.mem_append.mp ht with h | h
      · exact htl0id t h
      · rw [List.mem_singleton] at h
        subst h
        exact hbn
    · show ∀ t ∈ db.tags ++ [(⟨db.next_tag_id, k, w⟩ : TagRow)],
        t.id < db.next_tag_id + 1
      intro t ht
      rcases List.mem_append.mp ht with h | h
      · exact lt_trans (hlt t h) (by omega)
      · rw [List.mem_singleton] at h
        subst h
        simp
    · exact List.mem_map.mpr ⟨⟨db.next_tag_id, k, w⟩,
        List.mem_append_right _ (List.mem_singleton.mpr rfl), rfl⟩
    · intro kv hkv
      rw [List.map_append] at hkv
      rcases List.mem_append.mp hkv with h | h
      · exact Or.inl h
      · simp only [List.map_cons, List.map_nil, List.mem_singleton] at h
        exact Or.inr (by rw [h]; rfl)
    · show db.next_tag_id
        = tagIdLookup (db.tags ++ [⟨db.next_tag_id, k, w⟩]) (k, w)
      unfold tagIdLookup
      have hnone : db.tags.find? (fun u => u.kategorie == (k, w).1
          && u.wert == (k, w).2) = none := hf
      rw [List.find?_append, hnone]
      have hone : ([(⟨db.next_tag_id, k, w⟩ : TagRow)].find? (fun u =>
          u.kategorie == (k, w).1 && u.wert == (k, w).2))
          = some ⟨db.next_tag_id, k, w⟩ := by
        apply List.find?_cons_of_pos
        simp
      rw [hone]
      rfl

theorem insertSongTag_fresh (db : Db) (sid tid : Nat) (auto : Bool)
    (h : ∀ st ∈ db.song_tags, ¬(st.song_id = sid ∧ st.tag_id = tid)) :
    insertSongTag db sid tid auto
      = { db with song_tags := db.song_tags ++ [⟨sid, tid, auto⟩] } := by
  unfold insertSongTag
  rw [if_neg]
  intro hc
  rw [List.any_eq_true] at hc
  obtain ⟨st, hst, hcond⟩ := hc
  simp only [Bool.and_eq_true, beq_iff_eq] at hcond
  exact h st hst hcond

theorem attach_loop_spec (base : List TagRow) (bn sid : Nat) :
    ∀ (l : List (String × String)) (db : Db), l.Nodup →
      TagsWf base bn db.tags db.next_tag_id →
      (∀ st ∈ db.song_tags, st.tag_id < db.next_tag_id) →
      NoClash db sid l →
      (attachFold sid l db).songs = db.songs ∧
      (attachFold sid l db).next_song_id = db.next_song_id ∧
      TagsWf base bn (attachFold sid l db).tags (attachFold sid l db).next_tag_id ∧
      (∃ tl2, (attachFold sid l db).tags = db.tags ++ tl2 ∧
        ∀ t ∈ tl2, db.next_tag_id ≤ t.id) ∧
      db.next_tag_id ≤ (attachFold sid l db).next_tag_id ∧
      (∀ kv ∈ l, kv ∈ (attachFold sid l db).tags.map pairTag) ∧
      (attachFold sid l db).song_tags = db.song_tags ++
        l.map (fun kv => ⟨sid, tagIdLookup (attachFold sid l db).tags kv, true⟩) ∧
      (∀ st ∈ (attachFold sid l db).song_tags,
        st.tag_id < (attachFold sid l db).next_tag_id) := by
  intro l
  induction l with
  | nil =>
    intro db _ hwf hltb _
    refine ⟨rfl, rfl, hwf, ⟨[], by simp [attachFold], by simp⟩, le_refl _,
      ?_, by simp [attachFold], hltb⟩
    intro kv hkv
    cases hkv
  | cons kv rest ih =>
    intro db hnd hwf hltb hnc
    obtain ⟨hkv_rest, hnd_rest⟩ := List.nodup_cons.mp hnd
    obtain ⟨G1, G2, G3, G4, ⟨tlg, htlg, htlgid⟩, G6, G7, G8, G9⟩ :=
      get_or_create_spec base bn db kv.1 kv.2 hwf
    have hkveta : ((kv.1, kv.2) : String × String) = kv := rfl
    rw [hkveta] at G7 G8 G9
    set dbA := (get_or_create_tag db kv.1 kv.2).1 with hdbA
    set rid := (get_or_create_tag db kv.1 kv.2).2 with hrid
    -- the id under which kv is stored is the id of some row of dbA.tags
    obtain ⟨trow, htrow, htrowp, htrowid⟩ := tagIdLookup_mem dbA.tags kv G7
    have hridrow : rid = trow.id := by rw [G9, htrowid]
    -- freshness of the (sid, rid) link
    have hfreshlink : ∀ st ∈ dbA.song_tags, ¬(st.song_id = sid ∧ st.tag_id = rid) := by
      intro st hst ⟨hsid, htid⟩
      rw [G2] at hst
      by_cases hin : kv ∈ db.tags.map pairTag
      · have hstable : tagIdLookup dbA.tags kv = tagIdLookup db.tags kv := by
          rw [htlg]
          exact tagIdLookup_append db.tags tlg kv hin
        exact hnc st hst hsid kv (List.mem_cons_self kv rest) hin
          (by rw [htid, G9, hstable])
      · have htl : trow ∈ tlg := by
          rcases List.mem_append.mp (htlg ▸ htrow) with h | h
          · exact absurd (List.mem_map.mpr ⟨trow, h, htrowp⟩) hin
          · exact h
        have : db.next_tag_id ≤ trow.id := htlgid trow htl
        have := hltb st hst
        omega
    have hins := insertSongTag_fresh dbA sid rid true hfreshlink
    set dbB := insertSongTag dbA sid rid true with hdbB
    have hBtags : dbB.tags = dbA.tags := by rw [hins]
    have hBnexttag : dbB.next_tag_id = dbA.next_tag_id := by rw [hins]
    have hBsongs : dbB.songs = db.songs := by rw [hins]; exact G1
    have hBnextsong : dbB.next_song_id = db.next_song_id := by rw [hins]; exact G3
    have hBlinks : dbB.song_tags = db.song_tags ++ [⟨sid, rid, true⟩] := by
      rw [hins]
      show dbA.song_tags ++ _ = _
      rw [G2]
    have hstep : attachFold sid (kv :: rest) db = attachFold sid rest dbB := rfl
    -- invariant at dbB
    have hBwf : TagsWf base bn dbB.tags dbB.next_tag_id := by
      rw [hBtags, hBnexttag]; exact G4
    have hBltb : ∀ st ∈ dbB.song_tags, st.tag_id < dbB.next_tag_id := by
      intro st hst
      rw [hBlinks] at hst
      rw [hBnexttag]
      rcases List.mem_append.mp hst with h | h
      · exact lt_of_lt_of_le (hltb st h) G6
      · rw [List.mem_singleton] at h
        subst h
        show rid < dbA.next_tag_id
        rw [hridrow]
        exact G4.2.1 trow htrow
    have hBnc : NoClash dbB sid rest := by
      intro st hst hsid kv' hkv' hkv'mem
      rw [hBtags] at hkv'mem ⊢
      have hkv'ne : kv' ≠ kv := fun h => hkv_rest (h ▸ hkv')
      rw [hBlinks] at hst
      rcases List.mem_append.mp hst with h | h
      · rcases G8 kv' hkv'mem with hold | heq
        · have hstable : tagIdLookup dbA.tags kv' = tagIdLookup db.tags kv' := by
            rw [htlg]
            exact tagIdLookup_append db.tags tlg kv' hold
          rw [hstable]
          exact hnc st h hsid kv' (List.mem_cons_of_mem kv hkv') hold
        · exact absurd heq hkv'ne
      · rw [List.mem_singleton] at h
        subst h
        show rid ≠ tagIdLookup dbA.tags kv'
        rw [G9]
        exact tagIdLookup_inj dbA.tags G4.2.2.1 kv kv' G7 hkv'mem
          (fun h => hkv'ne h.symm)
    obtain ⟨A1, A2, A3, ⟨tl2, htl2, htl2id⟩, A5, A6, A7, A8⟩ :=
      ih dbB hnd_rest hBwf hBltb hBnc
    rw [hstep]
    have hfinaltags : (attachFold sid rest dbB).tags = db.tags ++ (tlg ++ tl2) := by
      rw [htl2, hBtags, htlg, List.append_assoc]
    have hkvstable : tagIdLookup (attachFold sid rest dbB).tags kv
        = tagIdLookup dbA.tags kv := by
      rw [htl2, hBtags]
      exact tagIdLookup_append dbA.tags tl2 kv G7
    refine ⟨A1.trans hBsongs, A2.trans hBnextsong, A3,
      ⟨tlg ++ tl2, hfinaltags, ?_⟩, le_trans G6 (hBnexttag ▸ A5), ?_, ?_, A8⟩
    · intro t ht
      rcases List.mem_append.mp ht with h | h
      · exact htlgid t h
      · exact le_trans G6 (hBnexttag ▸ htl2id t h)
    · intro kv' hkv'
      rcases List.mem_cons.mp hkv' with rfl | h
      · rw [htl2, hBtags, List.map_append]
        exact List.mem_append_left _ G7
      · exact A6 kv' h
    · rw [A7, hBlinks, List.append_assoc, List.singleton_append, List.map_cons]
      have hx : (⟨sid, rid, true⟩ : SongTagRow)
          = ⟨sid, tagIdLookup (attachFold sid rest dbB).tags kv, true⟩ := by
        rw [hkvstable, ← G9]
      rw [hx]

theorem insertIfNew_fresh_spec (audio : String → Option String) (db : Db)
    (p : RelPath) (base : List TagRow) (bn : Nat)
    (hnotex : songPathExists db (pathString p) = false)
    (hwf : TagsWf base bn db.tags db.next_tag_id)
    (hltb : ∀ st ∈ db.song_tags, st.tag_id < db.next_tag_id)
    (hsb : ∀ st ∈ db.song_tags, st.song_id < db.next_song_id) :
    (insertIfNew audio db p).songs
      = db.songs ++ [mkSongRow audio db.next_song_id p] ∧
    (insertIfNew audio db p).next_song_id = db.next_song_id + 1 ∧
    TagsWf base bn (insertIfNew audio db p).tags
      (insertIfNew audio db p).next_tag_id ∧
    (∃ tl2, (insertIfNew audio db p).tags = db.tags ++ tl2 ∧
      ∀ t ∈ tl2, db.next_tag_id ≤ t.id) ∧
    db.next_tag_id ≤ (insertIfNew audio db p).next_tag_id ∧
    (∀ kv ∈ infer_tags (pathString p),
      kv ∈ (insertIfNew audio db p).tags.map pairTag) ∧
    (insertIfNew audio db p).song_tags = db.song_tags
      ++ linksFor (insertIfNew audio db p).tags (p, db.next_song_id) ∧
    (∀ st ∈ (insertIfNew audio db p).song_tags,
      st.tag_id < (insertIfNew audio db p).next_tag_id) ∧
    (∀ st ∈ (insertIfNew audio db p).song_tags,
      st.song_id < (insertIfNew audio db p).next_song_id) := by
  have hred : insertIfNew audio db p
      = attachFold db.next_song_id (infer_tags (pathString p))
          { db with
            songs := db.songs ++ [mkSongRow audio db.next_song_id p],
            next_song_id := db.next_song_id + 1 } := by
    simp only [insertIfNew, hnotex, Bool.false_eq_true, if_false]
    rfl
  set db1 : Db := { db with
    songs := db.songs ++ [mkSongRow audio db.next_song_id p],
    next_song_id := db.next_song_id + 1 } with hdb1
  have hnc : NoClash db1 db.next_song_id (infer_tags (pathString p)) := by
    intro st hst hsid kv _ _
    have : st.song_id < db.next_song_id := hsb st hst
    omega
  obtain ⟨A1, A2, A3, A4, A5, A6, A7, A8⟩ :=
    attach_loop_spec base bn db.next_song_id (infer_tags (pathString p)) db1
      (infer_tags_nodup (pathString p)) hwf hltb hnc
  rw [hred]
  refine ⟨A1, A2, A3, A4, A5, A6, A7, A8, ?_⟩
  intro st hst
  rw [A7] at hst
  rw [A2]
  rcases List.mem_append.mp hst with h | h
  · have := hsb st h
    show st.song_id < db.next_song_id + 1
    omega
  · obtain ⟨kv, -, rfl⟩ := List.mem_map.mp h
    show db.next_song_id < db.next_song_id + 1
    omega

theorem workerStep_eq_add (audio : String → Option String) (fs : List RelPath)
    (db : Db) (e : FsEvent)
    (h : (applyFsEvent fs e).contains e.path = true) :
    workerStep audio (fs, db) e
      = (applyFsEvent fs e, add_single_file audio db e.path) := by
  simp only [workerStep, h, if_true]

theorem workerStep_eq_remove (audio : String → Option String) (fs : List RelPath)
    (db : Db) (e : FsEvent)
    (h : (applyFsEvent fs e).contains e.path = false) :
    workerStep audio (fs, db) e
      = (applyFsEvent fs e, remove_single_file db e.path) := by
  simp only [workerStep, h, Bool.false_eq_true, if_false]

theorem add_single_file_eligible (audio : String → Option String) (db : Db)
    (p : RelPath) (he : scannerEligible p = true) :
    add_single_file audio db p = insertIfNew audio db p := by
  have h := he
  simp only [scannerEligible, Bool.and_eq_true, Bool.not_eq_true'] at h
  obtain ⟨⟨hsi, -⟩, hext⟩ := h
  simp [add_single_file, hext, hsi]

theorem applyFsEvent_create_contains (fs : List RelPath) (p : RelPath) :
    (applyFsEvent fs (FsEvent.create p)).contains p = true := by
  by_cases h : fs.contains p = true
  · simp only [applyFsEvent, h, if_true]
  · rw [Bool.not_eq_true] at h
    simp only [applyFsEvent, h, Bool.false_eq_true, if_false]
    exact List.elem_iff.mpr (List.mem_append_right fs (List.mem_singleton.mpr rfl))

theorem applyFsEvent_remove_not_contains (fs : List RelPath) (p : RelPath) :
    (applyFsEvent fs (FsEvent.remove p)).contains p = false := by
  rw [Bool.eq_false_iff]
  intro hc
  have hm : p ∈ fs.filter (fun q => !(q == p)) := List.elem_iff.mp hc
  have := (List.mem_filter.mp hm).2
  simp at this

theorem nodup_append_single {α : Type} (l : List α) (a : α)
    (h : l.Nodup) (ha : a ∉ l) : (l ++ [a]).Nodup := by
  rw [List.nodup_append]
  exact ⟨h, List.nodup_singleton a,
    fun x hx hxa => ha ((List.mem_singleton.mp hxa) ▸ hx)⟩

theorem flatMap_congr {α β : Type} (l : List α) (f g : α → List β)
    (h : ∀ a ∈ l, f a = g a) : l.flatMap f = l.flatMap g := by
  induction l with
  | nil => rfl
  | cons a rest ih =>
    rw [List.flatMap_cons, List.flatMap_cons, h a (List.mem_cons_self a rest),
      ih (fun x hx => h x (List.mem_cons_of_mem a hx))]

theorem linksFor_song_id (T : List TagRow) (pi : RelPath × Nat)
    (st : SongTagRow) (h : st ∈ linksFor T pi) : st.song_id = pi.2 := by
  obtain ⟨kv, -, rfl⟩ := List.mem_map.mp h
  rfl

theorem linksFor_filter_self (T : List TagRow) (pi : RelPath × Nat) :
    (linksFor T pi).filter (fun st => st.song_id == pi.2) = linksFor T pi := by
  rw [List.filter_eq_self]
  intro st hst
  rw [linksFor_song_id T pi st hst]
  exact beq_self_eq_true _

theorem linksFor_filter_other (T : List TagRow) (pi : RelPath × Nat) (n : Nat)
    (h : pi.2 ≠ n) :
    (linksFor T pi).filter (fun st => st.song_id == n) = [] := by
  rw [List.filter_eq_nil_iff]
  intro st hst hc
  rw [linksFor_song_id T pi st hst] at hc
  exact h (beq_iff_eq.mp hc)

theorem flatMap_links_sid_filter (T : List TagRow) :
    ∀ (added : List (RelPath × Nat)) (pi : RelPath × Nat),
      (added.map Prod.snd).Nodup → pi ∈ added →
      (added.flatMap (linksFor T)).filter (fun st => st.song_id == pi.2)
        = linksFor T pi := by
  intro added
  induction added with
  | nil => intro pi _ hpi; cases hpi
  | cons q rest ih =>
    intro pi hnd hpi
    rw [List.map_cons, List.nodup_cons] at hnd
    rw [List.flatMap_cons, List.filter_append]
    rcases List.mem_cons.mp hpi with rfl | hpi2
    · rw [linksFor_filter_self]
      have hrest : (rest.flatMap (linksFor T)).filter
          (fun st => st.song_id == pi.2) = [] := by
        rw [List.filter_eq_nil_iff]
        intro st hst hc
        obtain ⟨r, hr, hstr⟩ := List.mem_flatMap.mp hst
        rw [linksFor_song_id T r st hstr] at hc
        exact hnd.1 (List.mem_map.mpr ⟨r, hr, beq_iff_eq.mp hc⟩)
      rw [hrest, List.append_nil]
    · have hqne : q.2 ≠ pi.2 := fun h =>
        hnd.1 (List.mem_map.mpr ⟨pi, hpi2, h.symm⟩)
      rw [linksFor_filter_other T q pi.2 hqne, List.nil_append]
      exact ih pi hnd.2 hpi2

theorem flatMap_links_remove_filter (T : List TagRow)
    (all : List (RelPath × Nat)) (q : RelPath × Nat → Bool)
    (hnd : (all.map Prod.snd).Nodup) :
    ∀ (added : List (RelPath × Nat)), (∀ pi ∈ added, pi ∈ all) →
      (added.flatMap (linksFor T)).filter
          (fun st => !((all.filter q).any (fun x => x.2 == st.song_id)))
        = (added.filter (fun pi => !(q pi))).flatMap (linksFor T) := by
  intro added
  induction added with
  | nil => intro _; rfl
  | cons pi rest ih =>
    intro hsub
    have hpiall : pi ∈ all := hsub pi (List.mem_cons_self pi rest)
    have hrest := ih (fun x hx => hsub x (List.mem_cons_of_mem pi hx))
    rw [List.flatMap_cons, List.filter_append, hrest]
    by_cases hq : q pi = true
    · have hhead : (linksFor T pi).filter
          (fun st => !((all.filter q).any (fun x => x.2 == st.song_id))) = [] := by
        rw [List.filter_eq_nil_iff]
        intro st hst hc
        have hany : ((all.filter q).any (fun x => x.2 == st.song_id)) = true := by
          rw [List.any_eq_true]
          refine ⟨pi, List.mem_filter.mpr ⟨hpiall, hq⟩, ?_⟩
          rw [linksFor_song_id T pi st hst]
          exact beq_self_eq_true _
        rw [hany] at hc
        simp at hc
      rw [hhead, List.nil_append]
      have hdrop : (pi :: rest).filter (fun x => !(q x))
          = rest.filter (fun x => !(q x)) := by
        simp [hq]
      rw [hdrop]
    · have hqf : q pi = false := by
        revert hq; cases q pi <;> simp
      have hhead : (linksFor T pi).filter
          (fun st => !((all.filter q).any (fun x => x.2 == st.song_id)))
          = linksFor T pi := by
        rw [List.filter_eq_self]
        intro st hst
        have hany : ((all.filter q).any (fun x => x.2 == st.song_id)) = false := by
          rw [Bool.eq_false_iff]
          intro hc
          rw [List.any_eq_true] at hc
          obtain ⟨x, hx, hxeq⟩ := hc
          have hxall := (List.mem_filter.mp hx).1
          have hxq := (List.mem_filter.mp hx).2
          rw [linksFor_song_id T pi st hst] at hxeq
          have hxpi : x = pi :=
            List.inj_on_of_nodup_map hnd hxall hpiall (beq_iff_eq.mp hxeq)
          rw [hxpi, hqf] at hxq
          cases hxq
        rw [hany]
        rfl
      rw [hhead]
      have hkeep : (pi :: rest).filter (fun x => !(q x))
          = pi :: rest.filter (fun x => !(q x)) := by
        simp [hqf]
      rw [hkeep, List.flatMap_cons]

theorem deleteSongByPath_eq (db : Db) (rel : String) :
    deleteSongByPath db rel = { db with
      songs := db.songs.filter (fun s => !(s.dateipfad == rel)),
      song_tags := db.song_tags.filter (fun st =>
        !((db.songs.filter (fun s => s.dateipfad == rel)).any
            (fun s => s.id == st.song_id))) } := rfl

theorem workerStep_inv (audio : String → Option String) (db₀ : Db)
    (fs₀ evPaths : List RelPath) (hctx : C1Ctx db₀ fs₀ evPaths)
    (fs : List RelPath) (db : Db) (e : FsEvent) (he2 : e.path ∈ evPaths)
    (hinv : WorkerInv audio db₀ fs₀ evPaths (fs, db)) :
    WorkerInv audio db₀ fs₀ evPaths (workerStep audio (fs, db) e) := by
  obtain ⟨hC1, hC2, hC3, hC4, hC5, hC6, hC7⟩ := hctx
  obtain ⟨added, I1, I2, I3, I4, I5, I6, I7, I8, I9, I10, I11⟩ := hinv
  have I1a : fs = fs₀ ++ added.map Prod.fst := I1
  have I5a : ∀ pi ∈ added,
      db₀.next_song_id ≤ pi.2 ∧ pi.2 < db.next_song_id := I5
  have I6a : db₀.next_song_id ≤ db.next_song_id := I6
  have I7a : db.songs
      = db₀.songs ++ added.map (fun pi => mkSongRow audio pi.2 pi.1) := I7
  have I8a : db.song_tags
      = db₀.song_tags ++ added.flatMap (linksFor db.tags) := I8
  have I9a : ∀ pi ∈ added, ∀ kv ∈ infer_tags (pathString pi.1),
      kv ∈ db.tags.map pairTag := I9
  have I10a : ∀ l ∈ db.song_tags,
      l.song_id < db.next_song_id ∧ l.tag_id < db.next_tag_id := I10
  have I11a : TagsWf db₀.tags db₀.next_tag_id db.tags db.next_tag_id := I11
  cases e with
  | create p =>
    have hep : p ∈ evPaths := he2
    obtain ⟨helig, hpnfs0, hpndb0⟩ := hC6 p hep
    have hcontains : (applyFsEvent fs (FsEvent.create p)).contains p = true :=
      applyFsEvent_create_contains fs p
    have hstep := workerStep_eq_add audio fs db (FsEvent.create p) hcontains
    rw [hstep]
    simp only [FsEvent.path]
    rw [add_single_file_eligible audio db p helig]
    by_cases hmem : fs.contains p = true
    · have hfs2 : applyFsEvent fs (FsEvent.create p) = fs := by
        simp only [applyFsEvent, hmem, if_true]
      have hex : songPathExists db (pathString p) = true := by
        have hpmem : p ∈ fs := List.elem_iff.mp hmem
        rw [I1a] at hpmem
        rcases List.mem_append.mp hpmem with h | h
        · exact absurd h hpnfs0
        · obtain ⟨pi, hpi, hfst⟩ := List.mem_map.mp h
          rw [songPathExists, List.any_eq_true]
          refine ⟨mkSongRow audio pi.2 pi.1, ?_, ?_⟩
          · rw [I7a]
            exact List.mem_append_right _ (List.mem_map.mpr ⟨pi, hpi, rfl⟩)
          · show ((mkSongRow audio pi.2 pi.1).dateipfad == pathString p) = true
            have hdd : (mkSongRow audio pi.2 pi.1).dateipfad
                = pathString pi.1 := rfl
            rw [hdd, hfst]
            exact beq_self_eq_true _
      rw [hfs2, insertIfNew_of_exists audio db p hex]
      exact ⟨added, I1, I2, I3, I4, I5, I6, I7, I8, I9, I10, I11⟩
    · have hmemf : fs.contains p = false := by
        revert hmem; cases fs.contains p <;> simp
      have hfs2 : applyFsEvent fs (FsEvent.create p) = fs ++ [p] := by
        simp only [applyFsEvent, hmemf, Bool.false_eq_true, if_false]
      have hpnotfs : p ∉ fs := fun h => hmem (List.elem_iff.mpr h)
      have hpnotadded : p ∉ added.map Prod.fst := fun h =>
        hpnotfs (by rw [I1a]; exact List.mem_append_right _ h)
      have hnotex : songPathExists db (pathString p) = false := by
        rw [Bool.eq_false_iff]
        intro hc
        rw [songPathExists, List.any_eq_true] at hc
        obtain ⟨s, hs, hseq⟩ := hc
        have hseq2 : s.dateipfad = pathString p := beq_iff_eq.mp hseq
        rw [I7a] at hs
        rcases List.mem_append.mp hs with h | h
        · exact hpndb0 s h hseq2
        · obtain ⟨pi, hpi, rfl⟩ := List.mem_map.mp h
          have hps : pathString pi.1 = pathString p := hseq2
          have hpi1 : pi.1 = p := hC7 pi.1 p
            (List.mem_append_right fs₀ (I3 pi hpi))
            (List.mem_append_right fs₀ hep) hps
          exact hpnotadded (List.mem_map.mpr ⟨pi, hpi, hpi1⟩)
      have hltb : ∀ st ∈ db.song_tags, st.tag_id < db.next_tag_id :=
        fun st h => (I10a st h).2
      have hsb : ∀ st ∈ db.song_tags, st.song_id < db.next_song_id :=
        fun st h => (I10a st h).1
      obtain ⟨A1, A2, A3, A4, A5, A6, A7, A8, A9⟩ :=
        insertIfNew_fresh_spec audio db p db₀.tags db₀.next_tag_id
          hnotex I11a hltb hsb
      obtain ⟨tl2, htl2, htl2id⟩ := A4
      rw [hfs2]
      refine ⟨added ++ [(p, db.next_song_id)],
        ?_, ?_, ?_, ?_, ?_, ?_, ?_, ?_, ?_, ?_, A3⟩
      · show fs ++ [p] = fs₀ ++ (added ++ [(p, db.next_song_id)]).map Prod.fst
        simp [I1a]
      · show ((added ++ [(p, db.next_song_id)]).map Prod.fst).Nodup
        rw [List.map_append]
        exact nodup_append_single _ p I2 hpnotadded
      · intro pi hpi
        rcases List.mem_append.mp hpi with h | h
        · exact I3 pi h
        · rw [List.mem_singleton] at h
          subst h
          exact hep
      · show ((added ++ [(p, db.next_song_id)]).map Prod.snd).Nodup
        rw [List.map_append]
        refine nodup_append_single _ db.next_song_id I4 ?_
        intro h
        obtain ⟨pi, hpi, hsnd⟩ := List.mem_map.mp h
        have := (I5a pi hpi).2
        omega
      · intro pi hpi
        rcases List.mem_append.mp hpi with h | h
        · have hb := I5a pi h
          show db₀.next_song_id ≤ pi.2
            ∧ pi.2 < (insertIfNew audio db p).next_song_id
          rw [A2]
          omega
        · rw [List.mem_singleton] at h
          subst h
          show db₀.next_song_id ≤ db.next_song_id
            ∧ db.next_song_id < (insertIfNew audio db p).next_song_id
          rw [A2]
          omega
      · show db₀.next_song_id ≤ (insertIfNew audio db p).next_song_id
        rw [A2]
        omega
      · show (insertIfNew audio db p).songs = db₀.songs
          ++ (added ++ [(p, db.next_song_id)]).map
            (fun pi => mkSongRow audio pi.2 pi.1)
        rw [A1, I7a, List.map_append, List.append_assoc]
        rfl
      · show (insertIfNew audio db p).song_tags = db₀.song_tags
          ++ (added ++ [(p, db.next_song_id)]).flatMap
            (linksFor (insertIfNew audio db p).tags)
        rw [A7, I8a, List.flatMap_append]
        have hstab : added.flatMap (linksFor db.tags)
            = added.flatMap (linksFor (insertIfNew audio db p).tags) := by
          apply flatMap_congr
          intro pi hpi
          unfold linksFor
          apply List.map_congr_left
          intro kv hkv
          have hlk : tagIdLookup (insertIfNew audio db p).tags kv
              = tagIdLookup db.tags kv := by
            rw [htl2]
            exact tagIdLookup_append db.tags tl2 kv (I9a pi hpi kv hkv)
          rw [hlk]
        rw [hstab, List.append_assoc]
        simp only [List.flatMap_cons, List.flatMap_nil, List.append_nil]
      · intro pi hpi kv hkv
        rcases List.mem_append.mp hpi with h | h
        · have hm := I9a pi h kv hkv
          rw [htl2, List.map_append]
          exact List.mem_append_left _ hm
        · rw [List.mem_singleton] at h
          subst h
          exact A6 kv hkv
      · intro l hl
        exact ⟨A9 l hl, A8 l hl⟩
  | remove p =>
    have hep : p ∈ evPaths := he2
    obtain ⟨helig, hpnfs0, hpndb0⟩ := hC6 p hep
    have hnc : (applyFsEvent fs (FsEvent.remove p)).contains p = false :=
      applyFsEvent_remove_not_contains fs p
    have hstep := workerStep_eq_remove audio fs db (FsEvent.remove p) hnc
    rw [hstep]
    simp only [FsEvent.path, applyFsEvent]
    have hpteq : ∀ pi ∈ added,
        (pathString pi.1 == pathString p) = (pi.1 == p) := by
      intro pi hpi
      by_cases hq : pi.1 = p
      · rw [hq, beq_self_eq_true, beq_self_eq_true]
      · have hne : pathString pi.1 ≠ pathString p := fun hcon =>
          hq (hC7 pi.1 p (List.mem_append_right fs₀ (I3 pi hpi))
            (List.mem_append_right fs₀ hep) hcon)
        rw [beq_eq_false_iff_ne.mpr hne, beq_eq_false_iff_ne.mpr hq]
    have hdbzero : db₀.songs.filter
        (fun s => s.dateipfad == pathString p) = [] := by
      rw [List.filter_eq_nil_iff]
      intro s hs hc
      exact hpndb0 s hs (beq_iff_eq.mp hc)
    have hremoved : db.songs.filter (fun s => s.dateipfad == pathString p)
        = (added.filter (fun pi => pi.1 == p)).map
            (fun pi => mkSongRow audio pi.2 pi.1) := by
      rw [I7a, List.filter_append, hdbzero, List.nil_append, List.filter_map]
      congr 1
      exact List.filter_congr (fun pi hpi => hpteq pi hpi)
    have hkept : db.songs.filter (fun s => !(s.dateipfad == pathString p))
        = db₀.songs ++ (added.filter (fun pi => !(pi.1 == p))).map
            (fun pi => mkSongRow audio pi.2 pi.1) := by
      rw [I7a, List.filter_append]
      have h0 : db₀.songs.filter
          (fun s => !(s.dateipfad == pathString p)) = db₀.songs := by
        rw [List.filter_eq_self]
        intro s hs
        have hfalse : (s.dateipfad == pathString p) = false :=
          beq_eq_false_iff_ne.mpr (hpndb0 s hs)
        rw [hfalse]
        rfl
      rw [h0, List.filter_map]
      exact congrArg (fun l => db₀.songs
          ++ List.map (fun pi => mkSongRow audio pi.2 pi.1) l)
        (List.filter_congr (fun (pi : RelPath × Nat) hpi => by
          show (!(pathString pi.1 == pathString p)) = (!(pi.1 == p))
          rw [hpteq pi hpi]))
    have hanyconv : ∀ st : SongTagRow,
        (((added.filter (fun pi => pi.1 == p)).map
            (fun pi => mkSongRow audio pi.2 pi.1)).any
          (fun s => s.id == st.song_id))
        = ((added.filter (fun pi => pi.1 == p)).any
            (fun x => x.2 == st.song_id)) := by
      intro st
      induction added.filter (fun pi => pi.1 == p) with
      | nil => rfl
      | cons x rest ih =>
        simp only [List.map_cons, List.any_cons, ih]
        rfl
    have hlinkzero : db₀.song_tags.filter
        (fun st => !((db.songs.filter
            (fun s => s.dateipfad == pathString p)).any
          (fun s => s.id == st.song_id))) = db₀.song_tags := by
      rw [List.filter_eq_self]
      intro st hst
      have hany : ((db.songs.filter
          (fun s => s.dateipfad == pathString p)).any
        (fun s => s.id == st.song_id)) = false := by
        rw [Bool.eq_false_iff]
        intro hc
        rw [List.any_eq_true] at hc
        obtain ⟨s, hs, hseq⟩ := hc
        rw [hremoved] at hs
        obtain ⟨pi, hpi, rfl⟩ := List.mem_map.mp hs
        have hpi2 : pi ∈ added := (List.mem_filter.mp hpi).1
        have hge := (I5a pi hpi2).1
        have hlt := (hC3 st hst).1
        have hid : (mkSongRow audio pi.2 pi.1).id = pi.2 := rfl
        rw [hid] at hseq
        have := beq_iff_eq.mp hseq
        omega
      rw [hany]
      rfl
    have hlinks : (remove_single_file db p).song_tags
        = db₀.song_tags ++ (added.filter (fun pi => !(pi.1 == p))).flatMap
            (linksFor db.tags) := by
      show db.song_tags.filter (fun st => !((db.songs.filter
          (fun s => s.dateipfad == pathString p)).any
        (fun s => s.id == st.song_id))) = _
      rw [I8a, List.filter_append, hlinkzero]
      congr 1
      have hcong : ∀ st ∈ added.flatMap (linksFor db.tags),
          (!((db.songs.filter (fun s => s.dateipfad == pathString p)).any
            (fun s => s.id == st.song_id)))
          = (!((added.filter (fun pi => pi.1 == p)).any
            (fun x => x.2 == st.song_id))) := by
        intro st _
        rw [hremoved, hanyconv st]
      rw [List.filter_congr hcong]
      exact flatMap_links_remove_filter db.tags added (fun pi => pi.1 == p) I4
        added (fun x hx => hx)
    refine ⟨added.filter (fun pi => !(pi.1 == p)),
      ?_, ?_, ?_, ?_, ?_, I6a, ?_, hlinks, ?_, ?_, I11a⟩
    · show fs.filter (fun q => !(q == p))
        = fs₀ ++ (added.filter (fun pi => !(pi.1 == p))).map Prod.fst
      rw [I1a, List.filter_append]
      have h0 : fs₀.filter (fun q => !(q == p)) = fs₀ := by
        rw [List.filter_eq_self]
        intro q hq
        have hfalse : (q == p) = false :=
          beq_eq_false_iff_ne.mpr (fun h => hpnfs0 (h ▸ hq))
        rw [hfalse]
        rfl
      rw [h0, List.filter_map]
      congr 1
    · show ((added.filter (fun pi => !(pi.1 == p))).map Prod.fst).Nodup
      exact List.Nodup.sublist ((List.filter_sublist added).map Prod.fst) I2
    · intro pi hpi
      exact I3 pi (List.mem_filter.mp hpi).1
    · show ((added.filter (fun pi => !(pi.1 == p))).map Prod.snd).Nodup
      exact List.Nodup.sublist ((List.filter_sublist added).map Prod.snd) I4
    · intro pi hpi
      exact I5a pi (List.mem_filter.mp hpi).1
    · show (remove_single_file db p).songs = db₀.songs
        ++ (added.filter (fun pi => !(pi.1 == p))).map
          (fun pi => mkSongRow audio pi.2 pi.1)
      show db.songs.filter (fun s => !(s.dateipfad == pathString p)) = _
      exact hkept
    · intro pi hpi kv hkv
      exact I9a pi (List.mem_filter.mp hpi).1 kv hkv
    · intro l hl
      have hl2 : l ∈ db.song_tags.filter (fun st => !((db.songs.filter
          (fun s => s.dateipfad == pathString p)).any
        (fun s => s.id == st.song_id))) := hl
      exact I10a l (List.mem_filter.mp hl2).1

theorem workerInv_init (audio : String → Option String) (db₀ : Db)
    (fs₀ evPaths : List RelPath) (hctx : C1Ctx db₀ fs₀ evPaths) :
    WorkerInv audio db₀ fs₀ evPaths (fs₀, db₀) := by
  obtain ⟨hC1, hC2, hC3, hC4, hC5, -, -⟩ := hctx
  refine ⟨[], by simp, List.nodup_nil, ?_, List.nodup_nil, ?_, le_refl _,
    by simp, by simp, ?_, hC3, ?_⟩
  · intro pi hpi
    cases hpi
  · intro pi hpi
    cases hpi
  · intro pi hpi
    cases hpi
  · exact ⟨⟨[], by simp, by simp⟩, hC2, hC4, hC5, le_refl _⟩

theorem processEvents_inv (audio : String → Option String) (db₀ : Db)
    (fs₀ evPaths : List RelPath) (hctx : C1Ctx db₀ fs₀ evPaths) :
    ∀ (events : List FsEvent) (fs : List RelPath) (db : Db),
      (∀ e ∈ events, e.path ∈ evPaths) →
      WorkerInv audio db₀ fs₀ evPaths (fs, db) →
      WorkerInv audio db₀ fs₀ evPaths (processEvents audio fs db events) := by
  intro events
  induction events with
  | nil =>
    intro fs db _ hinv
    exact hinv
  | cons e rest ih =>
    intro fs db hev hinv
    have h1 := workerStep_inv audio db₀ fs₀ evPaths hctx fs db e
      (hev e (List.mem_cons_self e rest)) hinv
    have hstep : processEvents audio fs db (e :: rest)
        = processEvents audio (workerStep audio (fs, db) e).1
            (workerStep audio (fs, db) e).2 rest := by
      show List.foldl (workerStep audio) (fs, db) (e :: rest) = _
      rw [List.foldl_cons]
      rfl
    rw [hstep]
    exact ih (workerStep audio (fs, db) e).1 (workerStep audio (fs, db) e).2
      (fun x hx => hev x (List.mem_cons_of_mem e hx)) h1

theorem scanInsert_eq_createRun (audio : String → Option String) :
    ∀ (ps : List RelPath) (fs : List RelPath) (db : Db),
      ps.Nodup → (∀ p ∈ ps, scannerEligible p = true) →
      (∀ p ∈ ps, p ∉ fs) →
      processEvents audio fs db (ps.map FsEvent.create)
        = (fs ++ ps, scanInsertPhase audio db ps) := by
  intro ps
  induction ps with
  | nil =>
    intro fs db _ _ _
    show (fs, db) = (fs ++ [], db)
    rw [List.append_nil]
  | cons p rest ih =>
    intro fs db hnd helig hnot
    have hpf : p ∉ fs := hnot p (List.mem_cons_self p rest)
    have hcf : fs.contains p = false := by
      rw [Bool.eq_false_iff]
      intro h
      exact hpf (List.elem_iff.mp h)
    have happ : applyFsEvent fs (FsEvent.create p) = fs ++ [p] := by
      simp only [applyFsEvent, hcf, Bool.false_eq_true, if_false]
    have hcont : (applyFsEvent fs (FsEvent.create p)).contains p = true :=
      applyFsEvent_create_contains fs p
    have hstep := workerStep_eq_add audio fs db (FsEvent.create p) hcont
    have hfold : processEvents audio fs db ((p :: rest).map FsEvent.create)
        = processEvents audio (applyFsEvent fs (FsEvent.create p))
            (add_single_file audio db p) (rest.map FsEvent.create) := by
      show List.foldl (workerStep audio) (fs, db)
          (FsEvent.create p :: rest.map FsEvent.create) = _
      rw [List.foldl_cons, hstep]
      rfl
    rw [hfold, happ,
      add_single_file_eligible audio db p (helig p (List.mem_cons_self p rest))]
    obtain ⟨hndp, hndrest⟩ := List.nodup_cons.mp hnd
    have hres := ih (fs ++ [p]) (insertIfNew audio db p) hndrest
      (fun q hq => helig q (List.mem_cons_of_mem p hq))
      (fun q hq hmem => by
        rcases List.mem_append.mp hmem with h | h
        · exact hnot q (List.mem_cons_of_mem p hq) h
        · exact hndp ((List.mem_singleton.mp h) ▸ hq))
    rw [hres]
    have h1 : fs ++ [p] ++ rest = fs ++ p :: rest := by simp
    have h2 : scanInsertPhase audio (insertIfNew audio db p) rest
        = scanInsertPhase audio db (p :: rest) := by
      show _ = List.foldl
        (fun db p => if scannerEligible p then insertIfNew audio db p else db)
        db (p :: rest)
      rw [List.foldl_cons, if_pos (helig p (List.mem_cons_self p rest))]
      rfl
    rw [h1, h2]

theorem find?_fst_congr (q : RelPath → Bool) :
    ∀ (l1 l2 : List (RelPath × Nat)), l1.map Prod.fst = l2.map Prod.fst →
      Option.map Prod.fst (l1.find? (fun pi => q pi.1))
        = Option.map Prod.fst (l2.find? (fun pi => q pi.1)) := by
  intro l1
  induction l1 with
  | nil =>
    intro l2 h
    cases l2 with
    | nil => rfl
    | cons b bs => exact absurd h (by simp)
  | cons a as ih =>
    intro l2 h
    cases l2 with
    | nil => exact absurd h (by simp)
    | cons b bs =>
      rw [List.map_cons, List.map_cons] at h
      injection h with h1 h2
      by_cases hq : q a.1 = true
      · rw [@List.find?_cons_of_pos _ (fun pi => q pi.1) a as hq,
          @List.find?_cons_of_pos _ (fun pi => q pi.1) b bs
            (by show q b.1 = true; rw [← h1]; exact hq)]
        show some a.1 = some b.1
        rw [h1]
      · rw [@List.find?_cons_of_neg _ (fun pi => q pi.1) a as hq,
          @List.find?_cons_of_neg _ (fun pi => q pi.1) b bs
            (by show ¬(q b.1 = true); rw [← h1]; exact hq)]
        exact ih bs h2

theorem linkAbs_linksFor (db : Db) (pi : RelPath × Nat)
    (hids : (db.tags.map TagRow.id).Nodup)
    (hmem : ∀ kv ∈ infer_tags (pathString pi.1), kv ∈ db.tags.map pairTag) :
    (linksFor db.tags pi).map (linkAbs db)
      = (infer_tags (pathString pi.1)).map
          (fun kv => ((some kv : Option (String × String)), true)) := by
  unfold linksFor
  rw [List.map_map]
  apply List.map_congr_left
  intro kv hkv
  obtain ⟨t, ht, htp, hti⟩ := tagIdLookup_mem db.tags kv (hmem kv hkv)
  show linkAbs db ⟨pi.2, tagIdLookup db.tags kv, true⟩ = (some kv, true)
  unfold linkAbs
  have hfind : db.tags.find?
      (fun u => u.id == (⟨pi.2, tagIdLookup db.tags kv, true⟩ : SongTagRow).tag_id)
      = some t := by
    show db.tags.find? (fun u => u.id == tagIdLookup db.tags kv) = some t
    rw [hti]
    exact find?_id_unique db.tags hids t ht
  rw [hfind]
  show (some (t.kategorie, t.wert), true) = (some kv, true)
  rw [show (t.kategorie, t.wert) = pairTag t from rfl, htp]

set_option maxHeartbeats 1600000 in
/-- C1: Convergence equivalence. Starting from an index `db₀` that is
synced with the filesystem `fs₀` (every eligible present file is indexed
and every indexed song is backed by an eligible found file), processing
any sequence of create/remove events on new eligible files through the
watcher's worker yields, on the end filesystem state, the same abstract
song stored under every relative path as a full `scan_directory` of that
end state run on `db₀` — same titles, artists, audio links and resolved
tag links — and every pre-existing song row (user edits included)
survives bit-identically along both paths. -/
theorem c1_convergence (audio : String → Option String) (db₀ : Db)
    (fs₀ : List RelPath) (events : List FsEvent)
    (hctx : C1Ctx db₀ fs₀ (events.map FsEvent.path))
    (hsynced : ∀ p ∈ fs₀, scannerEligible p = true →
      songPathExists db₀ (pathString p) = true)
    (hbacked : ∀ s ∈ db₀.songs, s.dateipfad ∈ foundPaths fs₀) :
    (∀ rel : String,
      songAbsAt (processEvents audio fs₀ db₀ events).2 rel
        = songAbsAt (scan_directory audio db₀
            (processEvents audio fs₀ db₀ events).1) rel) ∧
    (∀ s ∈ db₀.songs,
      s ∈ (processEvents audio fs₀ db₀ events).2.songs ∧
      s ∈ (scan_directory audio db₀
            (processEvents audio fs₀ db₀ events).1).songs) := by
  have hctx2 := hctx
  obtain ⟨hC1, hC2, hC3, hC4, hC5, hC6, hC7⟩ := hctx2
  have hinvW := processEvents_inv audio db₀ fs₀ (events.map FsEvent.path) hctx
    events fs₀ db₀ (fun e he => List.mem_map.mpr ⟨e, he, rfl⟩)
    (workerInv_init audio db₀ fs₀ (events.map FsEvent.path) hctx)
  obtain ⟨addedW, W1, W2, W3, W4, W5, W6, W7, W8, W9, W10, W11⟩ := hinvW
  have W1a : (processEvents audio fs₀ db₀ events).1
      = fs₀ ++ addedW.map Prod.fst := W1
  have helig : ∀ p ∈ addedW.map Prod.fst, scannerEligible p = true := by
    intro p hp
    obtain ⟨pi, hpi, rfl⟩ := List.mem_map.mp hp
    exact (hC6 pi.1 (W3 pi hpi)).1
  have hnfs0 : ∀ p ∈ addedW.map Prod.fst, p ∉ fs₀ := by
    intro p hp
    obtain ⟨pi, hpi, rfl⟩ := List.mem_map.mp hp
    exact (hC6 pi.1 (W3 pi hpi)).2.1
  have hrun := scanInsert_eq_createRun audio (addedW.map Prod.fst) fs₀ db₀
    W2 helig hnfs0
  have hinvS := processEvents_inv audio db₀ fs₀ (events.map FsEvent.path) hctx
    ((addedW.map Prod.fst).map FsEvent.create) fs₀ db₀
    (fun e he => by
      obtain ⟨p, hp, rfl⟩ := List.mem_map.mp he
      show p ∈ events.map FsEvent.path
      obtain ⟨pi, hpi, rfl⟩ := List.mem_map.mp hp
      exact W3 pi hpi)
    (workerInv_init audio db₀ fs₀ (events.map FsEvent.path) hctx)
  rw [hrun] at hinvS
  obtain ⟨addedS, S1, S2, S3, S4, S5, S6, S7, S8, S9, S10, S11⟩ := hinvS
  have hfsteq : addedW.map Prod.fst = addedS.map Prod.fst :=
    List.append_cancel_left
      (show fs₀ ++ addedW.map Prod.fst = fs₀ ++ addedS.map Prod.fst from S1)
  have hS7 : (scanInsertPhase audio db₀ (addedW.map Prod.fst)).songs
      = db₀.songs ++ addedS.map (fun pi => mkSongRow audio pi.2 pi.1) := S7
  have hS8 : (scanInsertPhase audio db₀ (addedW.map Prod.fst)).song_tags
      = db₀.song_tags ++ addedS.flatMap
          (linksFor (scanInsertPhase audio db₀ (addedW.map Prod.fst)).tags) := S8
  have hS5 : ∀ pi ∈ addedS, db₀.next_song_id ≤ pi.2 := fun pi h => (S5 pi h).1
  have hW5 : ∀ pi ∈ addedW, db₀.next_song_id ≤ pi.2 := fun pi h => (W5 pi h).1
  obtain ⟨⟨tlW, htlW, htlWid⟩, hWtagbound, hWids, hWpairs, hWbn⟩ := W11
  obtain ⟨⟨tlS, htlS, htlSid⟩, hStagbound, hSids, hSpairs, hSbn⟩ := S11
  have hins2 : scanInsertPhase audio db₀ (processEvents audio fs₀ db₀ events).1
      = scanInsertPhase audio db₀ (addedW.map Prod.fst) := by
    rw [W1a]
    show List.foldl _ db₀ (fs₀ ++ addedW.map Prod.fst) = _
    rw [List.foldl_append]
    show scanInsertPhase audio (scanInsertPhase audio db₀ fs₀)
        (addedW.map Prod.fst) = _
    rw [scanInsertPhase_id audio fs₀ db₀ hsynced]
  have hfoundW : foundPaths (processEvents audio fs₀ db₀ events).1
      = foundPaths fs₀ ++ foundPaths (addedW.map Prod.fst) := by
    rw [W1a]
    unfold foundPaths
    rw [List.filter_append, List.map_append]
  have hdel : ∀ s ∈ (scanInsertPhase audio db₀ (addedW.map Prod.fst)).songs,
      (foundPaths (processEvents audio fs₀ db₀ events).1).contains
        s.dateipfad = true := by
    intro s hs
    apply List.elem_iff.mpr
    rw [hfoundW]
    rw [hS7] at hs
    rcases List.mem_append.mp hs with h | h
    · exact List.mem_append_left _ (hbacked s h)
    · obtain ⟨pi, hpi, rfl⟩ := List.mem_map.mp h
      apply List.mem_append_right
      show pathString pi.1 ∈ foundPaths (addedW.map Prod.fst)
      have hmem1 : pi.1 ∈ addedW.map Prod.fst := by
        rw [hfsteq]
        exact List.mem_map.mpr ⟨pi, hpi, rfl⟩
      unfold foundPaths
      exact List.mem_map.mpr ⟨pi.1,
        List.mem_filter.mpr ⟨hmem1, (hC6 pi.1 (S3 pi hpi)).1⟩, rfl⟩
  have hdelid : scanDeletePhase (scanInsertPhase audio db₀ (addedW.map Prod.fst))
      (foundPaths (processEvents audio fs₀ db₀ events).1)
      = scanInsertPhase audio db₀ (addedW.map Prod.fst) :=
    scanDeletePhase_id _ _ hdel
  have hscan : scan_directory audio db₀ (processEvents audio fs₀ db₀ events).1
      = scanGcPhase (scanInsertPhase audio db₀ (addedW.map Prod.fst)) := by
    unfold scan_directory
    rw [hins2, hdelid]
  set dbI := scanInsertPhase audio db₀ (addedW.map Prod.fst) with hdbIdef
  set dbW := (processEvents audio fs₀ db₀ events).2 with hdbWdef
  have hgc : ∀ st ∈ dbI.song_tags,
      (scanGcPhase dbI).tags.find? (fun t => t.id == st.tag_id)
        = dbI.tags.find? (fun t => t.id == st.tag_id) := by
    intro st hst
    show (dbI.tags.filter
        (fun t => dbI.song_tags.any (fun x => x.tag_id == t.id))).find?
        (fun t => t.id == st.tag_id) = _
    cases hf : dbI.tags.find? (fun t => t.id == st.tag_id) with
    | none => exact find?_id_filter_of_none dbI.tags _ st.tag_id hf
    | some t =>
      apply find?_id_filter_of_pass dbI.tags _ st.tag_id t hSids hf
      rw [List.any_eq_true]
      refine ⟨st, hst, ?_⟩
      have hti : t.id = st.tag_id := by simpa using List.find?_some hf
      rw [hti]
      exact beq_self_eq_true _
  have habs : ∀ rel : String,
      songAbsAt dbW rel = songAbsAt (scanGcPhase dbI) rel := by
    intro rel
    unfold songAbsAt
    have hWsongs : dbW.songs
        = db₀.songs ++ addedW.map (fun pi => mkSongRow audio pi.2 pi.1) := W7
    have hSsongs : (scanGcPhase dbI).songs
        = db₀.songs ++ addedS.map (fun pi => mkSongRow audio pi.2 pi.1) := hS7
    rw [hWsongs, hSsongs, List.find?_append, List.find?_append]
    cases hf0 : db₀.songs.find? (fun s => s.dateipfad == rel) with
    | some s =>
      have hs0 : s ∈ db₀.songs := List.mem_of_find?_eq_some hf0
      have hsabs : songAbs dbW s = songAbs (scanGcPhase dbI) s := by
        have hWfilt : dbW.song_tags.filter (fun st => st.song_id == s.id)
            = db₀.song_tags.filter (fun st => st.song_id == s.id) := by
          have hW8 : dbW.song_tags
              = db₀.song_tags ++ addedW.flatMap (linksFor dbW.tags) := W8
          rw [hW8, List.filter_append]
          have htail : (addedW.flatMap (linksFor dbW.tags)).filter
              (fun st => st.song_id == s.id) = [] := by
            rw [List.filter_eq_nil_iff]
            intro st hst hcc
            obtain ⟨pi, hpi, hstpi⟩ := List.mem_flatMap.mp hst
            rw [linksFor_song_id _ pi st hstpi] at hcc
            have hb := hW5 pi hpi
            have hcid := hC1 s hs0
            have hee := beq_iff_eq.mp hcc
            omega
          rw [htail, List.append_nil]
        have hSfilt : dbI.song_tags.filter (fun st => st.song_id == s.id)
            = db₀.song_tags.filter (fun st => st.song_id == s.id) := by
          rw [hS8, List.filter_append]
          have htail : (addedS.flatMap (linksFor dbI.tags)).filter
              (fun st => st.song_id == s.id) = [] := by
            rw [List.filter_eq_nil_iff]
            intro st hst hcc
            obtain ⟨pi, hpi, hstpi⟩ := List.mem_flatMap.mp hst
            rw [linksFor_song_id _ pi st hstpi] at hcc
            have hb := hS5 pi hpi
            have hcid := hC1 s hs0
            have hee := beq_iff_eq.mp hcc
            omega
          rw [htail, List.append_nil]
        show SongAbs.mk s.titel s.artist s.dateiname s.has_audio s.audio_pfad
            ((dbW.song_tags.filter (fun st => st.song_id == s.id)).map
              (linkAbs dbW))
          = SongAbs.mk s.titel s.artist s.dateiname s.has_audio s.audio_pfad
            ((dbI.song_tags.filter (fun st => st.song_id == s.id)).map
              (linkAbs (scanGcPhase dbI)))
        rw [hWfilt, hSfilt]
        congr 1
        apply List.map_congr_left
        intro st hst
        have hst0 : st ∈ db₀.song_tags := (List.mem_filter.mp hst).1
        have htid : st.tag_id < db₀.next_tag_id := (hC3 st hst0).2
        have hWfind : dbW.tags.find? (fun t => t.id == st.tag_id)
            = db₀.tags.find? (fun t => t.id == st.tag_id) := by
          rw [htlW]
          exact find?_id_append_high db₀.tags tlW db₀.next_tag_id st.tag_id
            htid htlWid
        have hSfind : (scanGcPhase dbI).tags.find? (fun t => t.id == st.tag_id)
            = db₀.tags.find? (fun t => t.id == st.tag_id) := by
          rw [hgc st (by rw [hS8]; exact List.mem_append_left _ hst0), htlS]
          exact find?_id_append_high db₀.tags tlS db₀.next_tag_id st.tag_id
            htid htlSid
        show ((dbW.tags.find? (fun t => t.id == st.tag_id)).map
              (fun t => (t.kategorie, t.wert)), st.auto_generated)
          = (((scanGcPhase dbI).tags.find? (fun t => t.id == st.tag_id)).map
              (fun t => (t.kategorie, t.wert)), st.auto_generated)
        rw [hWfind, hSfind]
      show some (songAbs dbW s) = some (songAbs (scanGcPhase dbI) s)
      exact congrArg some hsabs
    | none =>
      rw [Option.none_or, Option.none_or, List.find?_map, List.find?_map]
      show Option.map (songAbs dbW)
          (Option.map (fun pi => mkSongRow audio pi.2 pi.1)
            (addedW.find? (fun pi => pathString pi.1 == rel)))
        = Option.map (songAbs (scanGcPhase dbI))
          (Option.map (fun pi => mkSongRow audio pi.2 pi.1)
            (addedS.find? (fun pi => pathString pi.1 == rel)))
      have hq : Option.map Prod.fst
            (addedW.find? (fun pi => pathString pi.1 == rel))
          = Option.map Prod.fst
            (addedS.find? (fun pi => pathString pi.1 == rel)) :=
        find?_fst_congr (fun r => pathString r == rel) addedW addedS hfsteq
      cases hfW : addedW.find? (fun pi => pathString pi.1 == rel) with
      | none =>
        rw [hfW] at hq
        cases hfS : addedS.find? (fun pi => pathString pi.1 == rel) with
        | none => rfl
        | some piS =>
          rw [hfS] at hq
          exact absurd hq (by simp)
      | some piW =>
        rw [hfW] at hq
        cases hfS : addedS.find? (fun pi => pathString pi.1 == rel) with
        | none =>
          rw [hfS] at hq
          exact absurd hq (by simp)
        | some piS =>
          rw [hfS] at hq
          have hp1 : piW.1 = piS.1 := by simpa using hq
          have hpiWmem : piW ∈ addedW := List.mem_of_find?_eq_some hfW
          have hpiSmem : piS ∈ addedS := List.mem_of_find?_eq_some hfS
          have hWlinks : dbW.song_tags.filter (fun st => st.song_id == piW.2)
              = linksFor dbW.tags piW := by
            have hW8 : dbW.song_tags
                = db₀.song_tags ++ addedW.flatMap (linksFor dbW.tags) := W8
            rw [hW8, List.filter_append]
            have h0 : db₀.song_tags.filter
                (fun st => st.song_id == piW.2) = [] := by
              rw [List.filter_eq_nil_iff]
              intro st hst hcc
              have hc1 := (hC3 st hst).1
              have hb := hW5 piW hpiWmem
              have hcc2 := beq_iff_eq.mp hcc
              omega
            rw [h0, List.nil_append]
            exact flatMap_links_sid_filter dbW.tags addedW piW W4 hpiWmem
          have hSlinks2 : dbI.song_tags.filter (fun st => st.song_id == piS.2)
              = linksFor dbI.tags piS := by
            rw [hS8, List.filter_append]
            have h0 : db₀.song_tags.filter
                (fun st => st.song_id == piS.2) = [] := by
              rw [List.filter_eq_nil_iff]
              intro st hst hcc
              have hc1 := (hC3 st hst).1
              have hb := hS5 piS hpiSmem
              have hcc2 := beq_iff_eq.mp hcc
              omega
            rw [h0, List.nil_append]
            exact flatMap_links_sid_filter dbI.tags addedS piS S4 hpiSmem
          have hWabs : (linksFor dbW.tags piW).map (linkAbs dbW)
              = (infer_tags (pathString piW.1)).map
                  (fun kv => ((some kv : Option (String × String)), true)) :=
            linkAbs_linksFor dbW piW hWids (W9 piW hpiWmem)
          have hSabs0 : (linksFor dbI.tags piS).map (linkAbs dbI)
              = (infer_tags (pathString piS.1)).map
                  (fun kv => ((some kv : Option (String × String)), true)) :=
            linkAbs_linksFor dbI piS hSids (S9 piS hpiSmem)
          have hSabs : (linksFor dbI.tags piS).map (linkAbs (scanGcPhase dbI))
              = (linksFor dbI.tags piS).map (linkAbs dbI) := by
            apply List.map_congr_left
            intro st hst
            have hstI : st ∈ dbI.song_tags := by
              rw [hS8]
              exact List.mem_append_right _
                (List.mem_flatMap.mpr ⟨piS, hpiSmem, hst⟩)
            show (((scanGcPhase dbI).tags.find?
                  (fun t => t.id == st.tag_id)).map
                  (fun t => (t.kategorie, t.wert)), st.auto_generated)
              = ((dbI.tags.find? (fun t => t.id == st.tag_id)).map
                  (fun t => (t.kategorie, t.wert)), st.auto_generated)
            rw [hgc st hstI]
          have hsongabs : songAbs dbW (mkSongRow audio piW.2 piW.1)
              = songAbs (scanGcPhase dbI) (mkSongRow audio piS.2 piS.1) := by
            have hlinkeq : (dbW.song_tags.filter
                  (fun st => st.song_id == piW.2)).map (linkAbs dbW)
                = (dbI.song_tags.filter
                  (fun st => st.song_id == piS.2)).map
                    (linkAbs (scanGcPhase dbI)) := by
              rw [hWlinks, hSlinks2, hSabs, hWabs, hSabs0, hp1]
            show SongAbs.mk (parse_filename piW.1.file).1
                (parse_filename piW.1.file).2 piW.1.file
                (audio (parse_filename piW.1.file).1).isSome
                (audio (parse_filename piW.1.file).1)
                ((dbW.song_tags.filter (fun st => st.song_id == piW.2)).map
                  (linkAbs dbW))
              = SongAbs.mk (parse_filename piS.1.file).1
                (parse_filename piS.1.file).2 piS.1.file
                (audio (parse_filename piS.1.file).1).isSome
                (audio (parse_filename piS.1.file).1)
                ((dbI.song_tags.filter (fun st => st.song_id == piS.2)).map
                  (linkAbs (scanGcPhase dbI)))
            rw [hp1, hlinkeq]
          show some (songAbs dbW (mkSongRow audio piW.2 piW.1))
            = some (songAbs (scanGcPhase dbI) (mkSongRow audio piS.2 piS.1))
          exact congrArg some hsongabs
  refine ⟨?_, ?_⟩
  · intro rel
    rw [hscan]
    exact habs rel
  · intro s hs
    refine ⟨?_, ?_⟩
    · have hWsongs : dbW.songs
          = db₀.songs ++ addedW.map (fun pi => mkSongRow audio pi.2 pi.1) := W7
      show s ∈ dbW.songs
      rw [hWsongs]
      exact List.mem_append_left _ hs
    · rw [hscan]
      show s ∈ dbI.songs
      rw [hS7]
      exact List.mem_append_left _ hs

/-- Witness for the convergence theorem: from an empty index and empty
filesystem, one create event for an eligible file, compared at that
file's path. -/
theorem c1_convergence_witness :
    songAbsAt (processEvents audioNone [] dbEmpty evC1).2
        (pathString plainPathEx)
      = songAbsAt (scan_directory audioNone dbEmpty
          (processEvents audioNone [] dbEmpty evC1).1)
        (pathString plainPathEx) :=
  (c1_convergence audioNone dbEmpty [] evC1
    (by
      refine ⟨?_, ?_, ?_, ?_, ?_, ?_, ?_⟩
      · intro s hs
        simp [dbEmpty] at hs
      · intro t ht
        simp [dbEmpty] at ht
      · intro st hst
        simp [dbEmpty] at hst
      · simp [dbEmpty]
      · simp [dbEmpty]
      · intro p hp
        simp only [evC1, List.map_cons, List.map_nil, FsEvent.path] at hp
        rw [List.mem_singleton] at hp
        subst hp
        exact ⟨by decide, by simp, fun s hs => by simp [dbEmpty] at hs⟩
      · intro p q hp hq _
        simp only [evC1, List.map_cons, List.map_nil, FsEvent.path,
          List.nil_append] at hp hq
        rw [List.mem_singleton] at hp hq
        rw [hp, hq])
    (fun p hp => absurd hp (List.not_mem_nil p))
    (fun s hs => by simp [dbEmpty] at hs)).1 (pathString plainPathEx)

end SongIndex
